import Mathlib

set_option maxRecDepth 100000

/-!
Verification of the fleetsight detection and ingestion pipelines
(`src/pipeline/detect.py`, `src/pipeline/ingest.py`) against their
natural-language specification.

The Python code is shallowly embedded: dictionaries become insertion-ordered
association lists, Python sets become duplicate-free lists, float arithmetic
is modelled exactly by the fraction type `Q` below, and the stateful
union-find of `compute_clusters` becomes explicit state passing with a fuel
bound that is proved sufficient.
-/

/-! ## Exact model of float values

All numeric values flowing through the detection pipeline (weights, rarity
factors, contributions, scores) are Python floats.  We model them as exact
fractions.  `Q` keeps the fraction unreduced with a positive denominator so
that every arithmetic operation is a plain integer computation the kernel
can evaluate; `Q.toRat` maps into `ℚ` for reasoning. -/

structure Q where
  num : Int
  den : Nat
  den_pos : 0 < den

namespace Q

def ofNat (n : Nat) : Q := ⟨n, 1, Nat.one_pos⟩

def zero : Q := ofNat 0

/-- Python `a + b` on floats. -/
def add (a b : Q) : Q :=
  ⟨a.num * b.den + b.num * a.den, a.den * b.den, Nat.mul_pos a.den_pos b.den_pos⟩

/-- Python `a * b` on floats. -/
def mul (a b : Q) : Q :=
  ⟨a.num * b.num, a.den * b.den, Nat.mul_pos a.den_pos b.den_pos⟩

/-- Python `a / n` for a positive integer `n`. -/
def divNat (a : Q) (n : Nat) (h : 0 < n) : Q :=
  ⟨a.num, a.den * n, Nat.mul_pos a.den_pos h⟩

/-- Python `a <= b` on floats (exact cross multiplication). -/
def le (a b : Q) : Bool := a.num * (b.den : Int) ≤ b.num * (a.den : Int)

/-- Python `a < b` on floats. -/
def lt (a b : Q) : Bool := a.num * (b.den : Int) < b.num * (a.den : Int)

/-- The integer nearest to `a` (ties upward); models Python `round(a)` for the
values reaching it in this program (Python rounds ties to even, which differs
only on exact half-integers). -/
def roundInt (a : Q) : Int := Int.fdiv (2 * a.num + a.den) (2 * a.den)

/-- Python `round(a, k)`: round to `k` decimal digits. -/
def roundTo (k : Nat) (a : Q) : Q :=
  ⟨roundInt ⟨a.num * (10 ^ k : Nat), a.den, a.den_pos⟩, 10 ^ k,
    Nat.pos_pow_of_pos k (by omega)⟩

def toRat (a : Q) : ℚ := (a.num : ℚ) / (a.den : ℚ)

theorem den_ne_zero_rat (a : Q) : ((a.den : ℚ)) ≠ 0 := by
  exact_mod_cast Nat.pos_iff_ne_zero.mp a.den_pos

theorem toRat_ofNat (n : Nat) : (ofNat n).toRat = (n : ℚ) := by
  simp [ofNat, toRat]

theorem toRat_zero : zero.toRat = 0 := by
  simp [zero, toRat_ofNat]

theorem toRat_add (a b : Q) : (a.add b).toRat = a.toRat + b.toRat := by
  have ha := a.den_ne_zero_rat
  have hb := b.den_ne_zero_rat
  simp only [add, toRat]
  push_cast
  field_simp
  all_goals ring

theorem toRat_mul (a b : Q) : (a.mul b).toRat = a.toRat * b.toRat := by
  have ha := a.den_ne_zero_rat
  have hb := b.den_ne_zero_rat
  simp only [mul, toRat]
  push_cast
  field_simp

theorem toRat_divNat (a : Q) (n : Nat) (h : 0 < n) :
    (a.divNat n h).toRat = a.toRat / (n : ℚ) := by
  have ha := a.den_ne_zero_rat
  have hn : ((n : ℚ)) ≠ 0 := by exact_mod_cast Nat.pos_iff_ne_zero.mp h
  simp only [divNat, toRat]
  push_cast
  field_simp

theorem le_iff (a b : Q) : a.le b = true ↔ a.toRat ≤ b.toRat := by
  have ha : (0 : ℚ) < (a.den : ℚ) := by exact_mod_cast a.den_pos
  have hb : (0 : ℚ) < (b.den : ℚ) := by exact_mod_cast b.den_pos
  simp only [le, toRat, decide_eq_true_eq]
  rw [div_le_div_iff ha hb]
  constructor
  · intro h; exact_mod_cast h
  · intro h; exact_mod_cast h

theorem lt_iff (a b : Q) : a.lt b = true ↔ a.toRat < b.toRat := by
  have ha : (0 : ℚ) < (a.den : ℚ) := by exact_mod_cast a.den_pos
  have hb : (0 : ℚ) < (b.den : ℚ) := by exact_mod_cast b.den_pos
  simp only [lt, toRat, decide_eq_true_eq]
  rw [div_lt_div_iff ha hb]
  constructor
  · intro h; exact_mod_cast h
  · intro h; exact_mod_cast h

theorem le_trans' {a b c : Q} (h1 : a.le b = true) (h2 : b.le c = true) :
    a.le c = true := by
  rw [le_iff] at *
  exact h1.trans h2

theorem le_total' (a b : Q) : (a.le b || b.le a) = true := by
  rcases le_total a.toRat b.toRat with h | h
  · have hh := (le_iff a b).mpr h
    simp [hh]
  · have hh := (le_iff b a).mpr h
    simp [hh]

/-- The rounding step is off by at most half an ulp:
`|round(a) - a| ≤ 1/2` in exact arithmetic. -/
theorem abs_roundInt_sub (a : Q) : |((roundInt a : ℚ)) - a.toRat| ≤ 1 / 2 := by
  have hd : (0 : Int) < (a.den : Int) := by exact_mod_cast a.den_pos
  have h2d : (0 : Int) < 2 * (a.den : Int) := by omega
  have hm := Int.fmod_nonneg' (2 * a.num + (a.den : Int)) h2d
  have hM := Int.fmod_lt_of_pos (2 * a.num + (a.den : Int)) h2d
  have hdiv := Int.fdiv_add_fmod (2 * a.num + (a.den : Int)) (2 * (a.den : Int))
  -- write q := fdiv, r := fmod; then 2*den*q + r = 2*num + den
  set q := Int.fdiv (2 * a.num + (a.den : Int)) (2 * (a.den : Int)) with hq
  set r := Int.fmod (2 * a.num + (a.den : Int)) (2 * (a.den : Int)) with hr
  have hdq : (0 : ℚ) < (a.den : ℚ) := by exact_mod_cast a.den_pos
  have hcast : (2 * (a.den : ℚ)) * q + r = 2 * a.num + a.den := by
    exact_mod_cast hdiv
  have hden2 : (2 * (a.den : ℚ)) ≠ 0 := by positivity
  have h2 : (q : ℚ) = (2 * a.num + a.den - r) / (2 * a.den) := by
    rw [eq_div_iff hden2]
    linarith [hcast]
  have key : (q : ℚ) - a.toRat = ((a.den : ℚ) - r) / (2 * a.den) := by
    rw [h2]
    simp only [toRat]
    field_simp
    all_goals ring
  rw [show ((roundInt a : ℚ)) = (q : ℚ) from by rw [hq]; rfl, key, abs_div,
    abs_of_pos (by positivity : (0:ℚ) < 2 * (a.den : ℚ))]
  rw [div_le_div_iff (by positivity) (by norm_num : (0:ℚ) < 2)]
  have hrq : (0 : ℚ) ≤ (r : ℚ) := by exact_mod_cast hm
  have hrM : (r : ℚ) < 2 * (a.den : ℚ) := by exact_mod_cast hM
  have habs : |(a.den : ℚ) - r| ≤ (a.den : ℚ) := by
    rw [abs_le]
    constructor <;> linarith
  linarith [habs]

/-- `round(a, k)` changes the value by at most `1 / (2 · 10^k)`. -/
theorem abs_roundTo_sub (k : Nat) (a : Q) :
    |(roundTo k a).toRat - a.toRat| ≤ 1 / (2 * (10 ^ k : ℚ)) := by
  have hp : (0 : ℚ) < (10 ^ k : ℚ) := by positivity
  have hb := abs_roundInt_sub ⟨a.num * (10 ^ k : Nat), a.den, a.den_pos⟩
  have hras : (roundTo k a).toRat =
      ((roundInt ⟨a.num * (10 ^ k : Nat), a.den, a.den_pos⟩ : ℚ)) / (10 ^ k : ℚ) := by
    simp only [roundTo, toRat]
    push_cast
    ring
  have hscale : (Q.mk (a.num * (10 ^ k : Nat)) a.den a.den_pos).toRat
      = a.toRat * (10 ^ k : ℚ) := by
    simp only [toRat]
    push_cast
    ring
  rw [hras]
  rw [hscale] at hb
  have : |(roundInt ⟨a.num * (10 ^ k : Nat), a.den, a.den_pos⟩ : ℚ) / (10 ^ k : ℚ)
      - a.toRat|
      = |(roundInt ⟨a.num * (10 ^ k : Nat), a.den, a.den_pos⟩ : ℚ)
        - a.toRat * (10 ^ k : ℚ)| / (10 ^ k : ℚ) := by
    rw [← abs_of_pos hp, ← abs_div]
    congr 1
    field_simp
    all_goals ring
  rw [this, div_le_div_iff hp (by positivity)]
  calc |(roundInt ⟨a.num * (10 ^ k : Nat), a.den, a.den_pos⟩ : ℚ)
        - a.toRat * (10 ^ k : ℚ)| * (2 * (10 ^ k : ℚ))
      ≤ (1 / 2) * (2 * (10 ^ k : ℚ)) := by
        apply mul_le_mul_of_nonneg_right hb (by positivity)
    _ = 1 * (10 ^ k : ℚ) := by ring

instance : DecidableEq Q := fun a b =>
  decidable_of_iff (a.num = b.num ∧ a.den = b.den) (by cases a; cases b; simp)

instance : Repr Q := ⟨fun a _ => repr (a.num, a.den)⟩

end Q

/-! ## Generic helpers: insertion-ordered association lists

Python dictionaries preserve insertion order; we model them as association
lists where a new key is appended at the end and an existing key is updated
in place. -/

/-- Dictionary lookup: first binding of the key, if any. -/
def alookup {α β : Type} [DecidableEq α] : List (α × β) → α → Option β
  | [], _ => none
  | (k, v) :: rest, a => if k = a then some v else alookup rest a

/-- Dictionary assignment `m[k] = v` (update in place, else append). -/
def aset {α β : Type} [DecidableEq α] : List (α × β) → α → β → List (α × β)
  | [], a, v => [(a, v)]
  | (k, w) :: rest, a, v =>
    if k = a then (a, v) :: rest else (k, w) :: aset rest a v

/-- `defaultdict` update: `m[k] = f(m.get(k, d))`. -/
def aupd {α β : Type} [DecidableEq α] : List (α × β) → α → β → (β → β) → List (α × β)
  | [], a, d, f => [(a, f d)]
  | (k, w) :: rest, a, d, f =>
    if k = a then (k, f w) :: rest else (k, w) :: aupd rest a d f

/-- `itertools.combinations(l, 2)`: all index pairs `i < j` in order. -/
def combinations2 {α : Type} : List α → List (α × α)
  | [] => []
  | x :: xs => xs.map (fun y => (x, y)) ++ combinations2 xs

/-- Boolean `≤` on naturals, for the stable sorts below. -/
def natLE (a b : Nat) : Bool := a ≤ b

/-- Insert into a sorted list after every element `y` with `le y x`;
the building block of the stable sort below. -/
def insertLE {α : Type} (le : α → α → Bool) (x : α) : List α → List α
  | [] => [x]
  | y :: ys => if le y x then y :: insertLE le x ys else x :: y :: ys

/-- Stable sort by a total boolean preorder: the semantics of Python
`sorted`/`list.sort` with a key comparison. -/
def sortLE {α : Type} (le : α → α → Bool) (l : List α) : List α :=
  l.foldl (fun acc x => insertLE le x acc) []

/-! ## Normalizers (`detect.py` lines 74-104) -/

/-- Python `str.strip()` (on the whitespace the data contains). -/
def strip (l : List Char) : List Char :=
  ((l.dropWhile Char.isWhitespace).reverse.dropWhile Char.isWhitespace).reverse

/-- Membership in Python `string.punctuation`, i.e. the ASCII ranges
33-47, 58-64, 91-96 and 123-126. -/
def isPunct (c : Char) : Bool :=
  (33 ≤ c.toNat && c.toNat ≤ 47) || (58 ≤ c.toNat && c.toNat ≤ 64) ||
  (91 ≤ c.toNat && c.toNat ≤ 96) || (123 ≤ c.toNat && c.toNat ≤ 126)

/-- Split on whitespace, dropping empty chunks.  `re.sub(r"\s+", " ", t).strip()`
followed by `split(" ")` yields exactly these words. -/
def wordsAux : List Char → List Char → List (List Char)
  | [], cur => if cur.isEmpty then [] else [cur.reverse]
  | c :: rest, cur =>
    if c.isWhitespace then
      if cur.isEmpty then wordsAux rest [] else cur.reverse :: wordsAux rest []
    else wordsAux rest (c :: cur)

def wordsOf (l : List Char) : List (List Char) := wordsAux l []

/-- `normalize_phone` (detect.py:74): strip non-digits; fewer than 7 digits
gives the empty string, otherwise the last 10 digits are kept.  (Python
`\D` strips everything that is not a decimal digit; the carrier data is
ASCII, modelled by `Char.isDigit`.) -/
def normalize_phone (s : String) : String :=
  let digits := s.data.filter Char.isDigit
  if digits.isEmpty || digits.length < 7 then ""
  else String.mk (digits.drop (digits.length - 10))

def ADDRESS_SUFFIX_MAP : List (String × String) :=
  [("street", "st"), ("st.", "st"),
   ("avenue", "ave"), ("ave.", "ave"),
   ("road", "rd"), ("rd.", "rd"),
   ("drive", "dr"), ("dr.", "dr"),
   ("lane", "ln"), ("ln.", "ln"),
   ("boulevard", "blvd"), ("blvd.", "blvd"),
   ("court", "ct"), ("ct.", "ct"),
   ("circle", "cir"), ("cir.", "cir"),
   ("highway", "hwy"), ("hwy.", "hwy")]

/-- `ADDRESS_SUFFIX_MAP.get(tok, tok)`. -/
def suffixToken (tok : List Char) : List Char :=
  match alookup ADDRESS_SUFFIX_MAP (String.mk tok) with
  | some r => r.data
  | none => tok

/-- One component of `normalize_address`: strip, lowercase, punctuation to
spaces, collapse whitespace, rewrite suffix tokens. -/
def normComponent (v : String) : List Char :=
  let text := (strip v.data).map Char.toLower
  let text := text.map (fun c => if isPunct c then ' ' else c)
  List.intercalate [' '] ((wordsOf text).map suffixToken)

/-- `normalize_address` (detect.py:81): components joined by `" | "`,
discarded when the result has length ≤ 5. -/
def normalize_address (street city state : String) : String :=
  let parts := ([street, city, state].map normComponent).filter (fun p => ¬ p.isEmpty)
  let result := List.intercalate (" | ".data) parts
  if 5 < result.length then String.mk result else ""

/-- `normalize_officer` (detect.py:94): uppercase, keep only `[A-Z]` and
whitespace, collapse whitespace, discard when length ≤ 3. -/
def normalize_officer (s : String) : String :=
  let text := (strip s.data).map Char.toUpper
  let text := text.filter (fun c => c.isUpper || c.isWhitespace)
  let collapsed := List.intercalate [' '] (wordsOf text)
  if 3 < collapsed.length then String.mk collapsed else ""

/-- `rarity_weight` (detect.py:101): `0` for `freq ≤ 1`, else `2.0 / freq`. -/
def rarity_weight (freq : Nat) : Q :=
  if h : freq ≤ 1 then Q.zero else ⟨2, freq, by omega⟩

/-! ## Carrier records and dates

A row of the in-memory carrier dictionary built by `load_carriers_from_db`.
`None` string fields are modelled by `""` (the code coalesces them with
`or ""` at every use); `priorRevokeDot`, `addDate` and `powerUnits` keep
their `None` case.  `add_date` values are calendar dates (ingestion stores
`YYYY-MM-DD`); `datetime` subtraction is modelled by the civil day number
`dateDays`. -/

structure CDate where
  y : Nat
  m : Nat
  d : Nat
deriving DecidableEq, Repr

/-- Day number of a Gregorian calendar date (days-from-civil algorithm);
differences of `dateDays` agree with Python `(da - db).days` for the
date-resolution datetimes this pipeline stores. -/
def dateDays (dt : CDate) : Int :=
  let y := if dt.m ≤ 2 then dt.y - 1 else dt.y
  let era := y / 400
  let yoe := y % 400
  let mp := (dt.m + 9) % 12
  let doy := (153 * mp + 2) / 5 + (dt.d - 1)
  let doe := yoe * 365 + yoe / 4 - yoe / 100 + doy
  ((era * 146097 + doe : Nat) : Int)

structure Carrier where
  dot : Nat
  phone : String
  fax : String
  cell_phone : String
  phy_street : String
  phy_city : String
  phy_state : String
  officer1 : String
  officer2 : String
  status_code : String
  prior_revoke_flag : String
  prior_revoke_dot : Option Nat
  add_date : Option CDate
  power_units : Option Nat
  vins : List String
  crash_count : Nat
  fatalities : Nat
deriving Repr

/-! ## Inverted index (`build_inverted_index`, detect.py:178) -/

/-- One feature's buckets: normalized value to the set of DOTs holding it
(a Python `set`, modelled as a duplicate-free list). -/
abbrev Buckets := List (String × List Nat)

abbrev Index := List (String × Buckets)

/-- `index[feature][value].add(dot)`. -/
def indexAdd (index : Index) (feature value : String) (dot : Nat) : Index :=
  aupd index feature []
    (fun bs => aupd bs value [] (fun b => if dot ∈ b then b else b ++ [dot]))

/-- The synthetic prior-revoke bucket key `f"{min(dot, target)}_{max(dot, target)}"`. -/
def pairKey (a b : Nat) : String :=
  Nat.repr (min a b) ++ "_" ++ Nat.repr (max a b)

/-- The phone/fax/cell/address/officer/VIN entries contributed by one
carrier (the first part of the loop body of `build_inverted_index`). -/
def indexAddBase (index : Index) (c : Carrier) : Index :=
  let index :=
    if normalize_phone c.phone ≠ "" then
      indexAdd index "phone" (normalize_phone c.phone) c.dot
    else index
  let index :=
    if normalize_phone c.fax ≠ "" then
      indexAdd index "fax" (normalize_phone c.fax) c.dot
    else index
  let index :=
    if normalize_phone c.cell_phone ≠ "" then
      indexAdd index "cell_phone" (normalize_phone c.cell_phone) c.dot
    else index
  let index :=
    if normalize_address c.phy_street c.phy_city c.phy_state ≠ "" then
      indexAdd index "address" (normalize_address c.phy_street c.phy_city c.phy_state) c.dot
    else index
  let index :=
    if normalize_officer c.officer1 ≠ "" then
      indexAdd index "officer" (normalize_officer c.officer1) c.dot
    else index
  let index :=
    if normalize_officer c.officer2 ≠ "" then
      indexAdd index "officer" (normalize_officer c.officer2) c.dot
    else index
  c.vins.foldl
    (fun index vin => if 5 ≤ vin.length then indexAdd index "vin" vin c.dot else index)
    index

/-- Feature entries contributed by one carrier (the loop body of
`build_inverted_index`): the base features, then the synthetic
prior-revoke bucket. -/
def indexAddCarrier (carriers : List Carrier) (index : Index) (c : Carrier) : Index :=
  let index := indexAddBase index c
  if c.prior_revoke_flag = "Y" ∧ c.prior_revoke_dot.getD 0 ≠ 0 then
    if c.prior_revoke_dot.getD 0 ∈ carriers.map Carrier.dot then
      indexAdd
        (indexAdd index "prior_revoke" (pairKey c.dot (c.prior_revoke_dot.getD 0)) c.dot)
        "prior_revoke" (pairKey c.dot (c.prior_revoke_dot.getD 0)) (c.prior_revoke_dot.getD 0)
    else index
  else index

def build_inverted_index (carriers : List Carrier) : Index :=
  carriers.foldl (indexAddCarrier carriers) []

/-! ## Pairwise scorer (`score_pairwise_links`, detect.py:227) -/

def FEATURE_WEIGHTS (f : String) : Q :=
  if f = "vin" then Q.ofNat 60
  else if f = "officer" then Q.ofNat 55
  else if f = "prior_revoke" then Q.ofNat 50
  else if f = "phone" then Q.ofNat 40
  else if f = "fax" then Q.ofNat 35
  else if f = "cell_phone" then Q.ofNat 35
  else if f = "address" then Q.ofNat 25
  else if f = "address_new_dot" then Q.ofNat 40
  else if f = "fleet_anomaly" then Q.ofNat 30
  else Q.zero

def FEATURE_ORDER : List String :=
  ["vin", "officer", "prior_revoke", "phone", "fax",
   "cell_phone", "address", "address_new_dot", "fleet_anomaly"]

structure Reason where
  feature : String
  value : String
  frequency : Nat
  contribution : Q
deriving DecidableEq, Repr

/-- The two parallel maps `pair_scores` / `pair_reasons` (defaultdicts keyed
by the normalized pair). -/
structure PairMaps where
  scores : List ((Nat × Nat) × Q)
  reasons : List ((Nat × Nat) × List Reason)

/-- The adjacent statements `pair_scores[pair] += contribution` and
`pair_reasons[pair].append({...})`; the recorded contribution is
`round(contribution, 4)`, the accumulated score is unrounded. -/
def addPair (m : PairMaps) (pair : Nat × Nat) (feature value : String)
    (freq : Nat) (c : Q) : PairMaps :=
  { scores := aupd m.scores pair Q.zero (fun s => s.add c),
    reasons := aupd m.reasons pair []
      (fun rs => rs ++ [⟨feature, value, freq, Q.roundTo 4 c⟩]) }

/-- Normalize an ordered pair as the source does: `(a, b) if a < b else (b, a)`. -/
def normPair (ab : Nat × Nat) : Nat × Nat :=
  if ab.1 < ab.2 then ab else (ab.2, ab.1)

/-- Loop body over one feature bucket: pairs of the sorted member list. -/
def scoreBucket (feature : String) (contribution : Q) (freq : Nat)
    (value : String) (members : List Nat) (m : PairMaps) : PairMaps :=
  (combinations2 (sortLE natLE members)).foldl
    (fun m ab => addPair m (normPair ab) feature (value.take 100) freq contribution) m

/-- `score_pairwise_links` (the `carriers` argument of the source is unused
by its body and omitted here). -/
def score_pairwise_links (index : Index) : PairMaps :=
  FEATURE_ORDER.foldl
    (fun m feature =>
      if feature = "address_new_dot" ∨ feature = "fleet_anomaly" then m
      else
        let weight := FEATURE_WEIGHTS feature
        let featIndex := (alookup index feature).getD []
        featIndex.foldl
          (fun m vm =>
            if vm.2.length < 2 then m
            else
              let rw := rarity_weight vm.2.length
              let contribution := weight.mul rw
              if contribution.le Q.zero then m
              else scoreBucket feature contribution vm.2.length vm.1 vm.2 m)
          m)
    ⟨[], []⟩

/-! ## Temporal signal augmenter (`detect_temporal_signals`, detect.py:263) -/

def inactive_statuses : List String := ["NOT AUTHORIZED", "OUT OF SERVICE", "REVOKED"]

/-- `status.upper() in inactive_statuses if status else False`. -/
def statusInactive (s : String) : Bool :=
  if s = "" then false
  else decide (String.mk (s.data.map Char.toUpper) ∈ inactive_statuses)

/-- The per-address bucket entries `(dot, add_date, status_code or "")`. -/
def addrEntries (carriers : List Carrier) : List (String × List (Nat × Option CDate × String)) :=
  carriers.foldl
    (fun ac c =>
      let addr := normalize_address c.phy_street c.phy_city c.phy_state
      if addr ≠ "" then
        aupd ac addr [] (fun l => l ++ [(c.dot, c.add_date, c.status_code)])
      else ac)
    []

/-- Inner-loop body of the temporal scan for one unordered pair of bucket
entries; returns the updated maps. -/
def temporalStep (m : PairMaps) (x y : Nat × Option CDate × String) : PairMaps :=
  if x.1 = y.1 then m
  else
    let a_inactive := statusInactive x.2.2
    let b_inactive := statusInactive y.2.2
    if ¬ (a_inactive || b_inactive) then m
    else
      match x.2.1, y.2.1 with
      | some da, some db =>
        let diff_days := (dateDays da - dateDays db).natAbs
        if diff_days ≤ 180 then
          addPair m (normPair (x.1, y.1)) "address_new_dot"
            ("Same address, " ++ Nat.repr diff_days ++ "d apart, one inactive")
            2 (FEATURE_WEIGHTS "address_new_dot")
        else m
      | _, _ => m

/-- `detect_temporal_signals`: mutates the pair maps with `address_new_dot`
bonuses for same-address groups. -/
def detect_temporal_signals (carriers : List Carrier) (m : PairMaps) : PairMaps :=
  (addrEntries carriers).foldl
    (fun m av =>
      if av.2.length < 2 then m
      else (combinations2 av.2).foldl (fun m xy => temporalStep m xy.1 xy.2) m)
    m

/-! ## Union-find clustering (`compute_clusters`, detect.py:313)

The mutable `parent` / `rank` dictionaries become total maps on `Nat`
threaded through the computation.  The `while` loop of `find` (with path
compression) is given explicit fuel; `compute_clusters` passes one more
than the number of qualifying edges, which is proved sufficient below
(ranks never exceed the number of unions performed). -/

structure UF where
  parent : Nat → Nat
  rank : Nat → Nat

/-- The body of `find`: follow parents to the root, halving the path
(`parent[x] = parent[parent[x]]; x = parent[x]`). -/
def findAux : Nat → UF → Nat → UF × Nat
  | 0, s, x => (s, x)
  | fuel + 1, s, x =>
    if s.parent x = x then (s, x)
    else
      let gp := s.parent (s.parent x)
      findAux fuel ⟨Function.update s.parent x gp, s.rank⟩ gp

/-- `union(a, b)` with union by rank. -/
def unionUF (fuel : Nat) (s : UF) (a b : Nat) : UF :=
  let fa := findAux fuel s a
  let fb := findAux fuel fa.1 b
  let s2 := fb.1
  let ra := fa.2
  let rb := fb.2
  if ra = rb then s2
  else if s2.rank ra < s2.rank rb then ⟨Function.update s2.parent ra rb, s2.rank⟩
  else if s2.rank rb < s2.rank ra then ⟨Function.update s2.parent rb ra, s2.rank⟩
  else ⟨Function.update s2.parent rb ra, Function.update s2.rank ra (s2.rank ra + 1)⟩

structure Cluster where
  cluster_id : String
  size : Nat
  members : List Nat
  edge_count : Nat
  avg_link_score : Q
  max_link_score : Q
deriving DecidableEq, Repr

/-- Python `sum` over float scores. -/
def qsum (l : List Q) : Q := l.foldl Q.add Q.zero

/-- Python `max` over a non-empty float list (`Q.zero` for `[]`, unused). -/
def qmaxList : List Q → Q
  | [] => Q.zero
  | x :: xs => xs.foldl (fun a b => if a.lt b then b else a) x

/-- Zero-padded `f"{n:04d}"`. -/
def pad4 (n : Nat) : String :=
  let s := Nat.repr n
  String.mk (List.replicate (4 - s.length) '0' ++ s.data)

/-- Sort key of `sorted(members_by_root.items(), key=lambda x: (-len(x[1]), x[0]))`. -/
def groupLE (x y : Nat × List Nat) : Bool :=
  (decide (y.2.length < x.2.length)) ||
    ((decide (x.2.length = y.2.length)) && (decide (x.1 ≤ y.1)))

/-- Sort key of `clusters.sort(key=lambda c: (-c["size"], -c["max_link_score"]))`. -/
def clusterLE (c d : Cluster) : Bool :=
  (decide (d.size < c.size)) || ((decide (c.size = d.size)) && d.max_link_score.le c.max_link_score)

/-- `enumerate(clusters, start=i)` id assignment `cluster_id = f"C{idx:04d}"`. -/
def assignIds : Nat → List Cluster → List Cluster
  | _, [] => []
  | i, c :: cs => { c with cluster_id := "C" ++ pad4 i } :: assignIds (i + 1) cs

/-- Build the cluster record of one root group (loop body at detect.py:353). -/
def buildCluster (qualifying : List ((Nat × Nat) × Q)) (rm : Nat × List Nat) : Cluster :=
  let members := sortLE natLE rm.2
  let scores := (combinations2 members).filterMap (fun ab => alookup qualifying (normPair ab))
  { cluster_id := "",
    size := members.length,
    members := members,
    edge_count := scores.length,
    avg_link_score :=
      if h : scores.length = 0 then Q.zero
      else Q.roundTo 4 ((qsum scores).divNat scores.length (by omega)),
    max_link_score := if scores.isEmpty then Q.zero else Q.roundTo 4 (qmaxList scores) }

/-- The pairs admitted to clustering: `score >= threshold`. -/
def qualifyingOf (pair_scores : List ((Nat × Nat) × Q)) (threshold : Q) :
    List ((Nat × Nat) × Q) :=
  pair_scores.filter (fun ps => threshold.le ps.2)

/-- The union-find state after all qualifying unions. -/
def unionState (pair_scores : List ((Nat × Nat) × Q)) (threshold : Q) : UF :=
  (qualifyingOf pair_scores threshold).foldl
    (fun s ps => unionUF ((qualifyingOf pair_scores threshold).length + 2) s ps.1.1 ps.1.2)
    ⟨fun x => x, fun _ => 0⟩

/-- `members_by_root`, then `sorted(..., key=lambda x: (-len(x[1]), x[0]))`. -/
def clusterGroups (pair_scores : List ((Nat × Nat) × Q)) (all_dots : List Nat)
    (threshold : Q) : List (Nat × List Nat) :=
  sortLE groupLE
    (all_dots.foldl
      (fun acc dot =>
        let fr := findAux ((qualifyingOf pair_scores threshold).length + 2) acc.1 dot
        (fr.1, aupd acc.2 fr.2 [] (fun l => l ++ [dot])))
      (unionState pair_scores threshold, ([] : List (Nat × List Nat)))).2

def compute_clusters (pair_scores : List ((Nat × Nat) × Q)) (all_dots : List Nat)
    (threshold : Q) : List Cluster :=
  assignIds 1 (sortLE clusterLE
    ((clusterGroups pair_scores all_dots threshold).map
      (buildCluster (qualifyingOf pair_scores threshold))))

/-! ## Risk scorer (`compute_risk_scores`, detect.py:383) -/

structure RiskScore where
  dot : Nat
  chameleon_score : Q
  safety_score : Q
  composite_score : Q
  signals : List String
  cluster_size : Nat
deriving DecidableEq, Repr

/-- Python `f"{q:.0f}"` for the non-negative scores formatted here (ties to
even differ from `Q.roundInt` only on exact half-integers, which no signal
value reaches through these weights). -/
def fmtF0 (q : Q) : String := Nat.repr (Q.roundInt q).toNat

/-- Python `max(cur, s)` on floats (first argument wins ties). -/
def qmax (cur s : Q) : Q := if cur.lt s then s else cur

/-- Python `min(a, 100)` style clamp (first argument wins ties). -/
def qclamp100 (a : Q) : Q := if a.le (Q.ofNat 100) then a else Q.ofNat 100

/-- The per-carrier maximum link score and shared-VIN reason count maps
(detect.py:397-406). -/
def linkAggregates (pair_scores : List ((Nat × Nat) × Q))
    (pair_reasons : List ((Nat × Nat) × List Reason)) :
    List (Nat × Nat) × List (Nat × Q) :=
  pair_reasons.foldl
    (fun acc pr =>
      let vinCount := (pr.2.filter (fun r => r.feature = "vin")).length
      let shared :=
        if vinCount = 0 then acc.1
        else aupd (aupd acc.1 pr.1.1 0 (fun n => n + vinCount)) pr.1.2 0
          (fun n => n + vinCount)
      let score := (alookup pair_scores pr.1).getD Q.zero
      let mx := aupd (aupd acc.2 pr.1.1 Q.zero (fun cur => qmax cur score)) pr.1.2
        Q.zero (fun cur => qmax cur score)
      (shared, mx))
    ([], [])

/-- The loop body of `compute_risk_scores` for one carrier. -/
def riskForCarrier (dot_to_cluster : List (Nat × Cluster))
    (aggregates : List (Nat × Nat) × List (Nat × Q)) (c : Carrier) : RiskScore :=
  let cluster := alookup dot_to_cluster c.dot
  let cluster_size := match cluster with | some cl => cl.size | none => 1
  let sharedVins := (alookup aggregates.1 c.dot).getD 0
  let maxLink := (alookup aggregates.2 c.dot).getD Q.zero
  let chameleon0 : Q := Q.zero
  let signals0 : List String := []
  let hasPR := c.prior_revoke_flag = "Y"
  let chameleon1 := if hasPR then chameleon0.add (Q.ofNat 40) else chameleon0
  let signals1 := if hasPR then signals0 ++ ["prior_revoke_flag"] else signals0
  let bigCluster := 3 ≤ cluster_size
  let chameleon2 := if bigCluster then chameleon1.add (Q.ofNat 20) else chameleon1
  let signals2 := if bigCluster then
      signals1 ++ ["cluster_size_" ++ Nat.repr cluster_size] else signals1
  let highLink := (Q.ofNat 50).lt maxLink
  let chameleon3 := if highLink then chameleon2.add (Q.ofNat 10) else chameleon2
  let signals3 := if highLink then
      signals2 ++ ["max_link_" ++ fmtF0 maxLink] else signals2
  let vin_bonus := min (sharedVins * 10) 30
  let chameleon4 := if 0 < vin_bonus then chameleon3.add (Q.ofNat vin_bonus) else chameleon3
  let signals4 := if 0 < vin_bonus then
      signals3 ++ ["shared_vins_" ++ Nat.repr sharedVins] else signals3
  let chameleon := qclamp100 chameleon4
  let safety0 : Q := Q.zero
  let hasCrash := 0 < c.crash_count
  let safety1 := if hasCrash then
      safety0.add (Q.ofNat (min (20 + 5 * c.crash_count) 50)) else safety0
  let signals5 := if hasCrash then
      signals4 ++ ["crashes_" ++ Nat.repr c.crash_count] else signals4
  let hasFatal := 0 < c.fatalities
  let safety2 := if hasFatal then safety1.add (Q.ofNat 30) else safety1
  let signals6 := if hasFatal then
      signals5 ++ ["fatalities_" ++ Nat.repr c.fatalities] else signals5
  let pu := c.power_units.getD 0
  let highRate :=
    if hp : 0 < pu then
      (0 < c.crash_count) && (Q.mk 1 2 (by omega)).lt ⟨c.crash_count, pu, hp⟩
    else false
  let safety3 := if highRate then safety2.add (Q.ofNat 20) else safety2
  let signals7 := if highRate then signals6 ++ ["high_crash_ratio"] else signals6
  let safety := qclamp100 safety3
  let composite := Q.roundTo 2
    (((Q.mk 7 10 (by omega)).mul chameleon).add ((Q.mk 3 10 (by omega)).mul safety))
  { dot := c.dot,
    chameleon_score := Q.roundTo 2 chameleon,
    safety_score := Q.roundTo 2 safety,
    composite_score := composite,
    signals := signals7,
    cluster_size := cluster_size }

def compute_risk_scores (carriers : List Carrier) (clusters : List Cluster)
    (pair_scores : List ((Nat × Nat) × Q))
    (pair_reasons : List ((Nat × Nat) × List Reason)) : List RiskScore :=
  let dot_to_cluster := clusters.foldl
    (fun m cl => cl.members.foldl (fun m d => aset m d cl) m) []
  let aggregates := linkAggregates pair_scores pair_reasons
  carriers.map (riskForCarrier dot_to_cluster aggregates)

/-! ## The detection run (`detect.py` `main`, lines 608-646) -/

/-- The in-memory part of a detection run: index, pair maps, clusters over
the full pair map, and risk scores. -/
def run_detection (carriers : List Carrier) (threshold : Q) :
    PairMaps × List Cluster × List RiskScore :=
  let index := build_inverted_index carriers
  let m0 := score_pairwise_links index
  let m := detect_temporal_signals carriers m0
  let clusters := compute_clusters m.scores (carriers.map Carrier.dot) threshold
  let risk := compute_risk_scores carriers clusters m.scores m.reasons
  (m, clusters, risk)

/-! ## Ingestion: HTTP retry loop (`socrata_fetch`, ingest.py:58)

The `for attempt in range(3)` retry loop.  Network behaviour is abstracted
by `outcome`, giving each attempt's result; the model returns the fetch
result together with the list of `time.sleep` waits performed. -/

/-- The loop `for attempt in attempts: try return page except: if attempt < 2
sleep(2^(attempt+1)) else raise`.  The first component of the result is the
returned page or the propagated exception; the second lists the waits.
(The fall-through case of an empty attempt list cannot occur for
`range(3)`.) -/
def fetchLoop {α : Type} (outcome : Nat → Except String α) :
    List Nat → List Nat → Except String α × List Nat
  | [], sleeps => (.error "loop exhausted", sleeps)
  | attempt :: rest, sleeps =>
    match outcome attempt with
    | .ok p => (.ok p, sleeps)
    | .error e =>
      if attempt < 2 then fetchLoop outcome rest (sleeps ++ [2 ^ (attempt + 1)])
      else (.error e, sleeps)

def socrata_fetch {α : Type} (outcome : Nat → Except String α) :
    Except String α × List Nat :=
  fetchLoop outcome (List.range 3) []

/-! ## Ingestion: sync-run bookkeeping and the four-stage `main`
(ingest.py:309-552)

`SyncRun` rows are modelled directly; the stage bodies (paging, upserts)
are abstracted by `Except`-valued outcomes since they are network and
store I/O, while the control flow of `main` — the single `try/except`
around all four stages — is modelled faithfully. -/

structure SyncRow where
  runId : String
  dataset : String
  status : String
  rowsProcessed : Nat
  errorMessage : Option String
deriving DecidableEq, Repr

/-- `create_sync_run` (ingest.py:309): insert a `running` row, or reset the
status of an existing row with the same `runId` to `running`. -/
def create_sync_run (db : List SyncRow) (runId dataset : String) : List SyncRow :=
  if (db.filter (fun r => r.runId = runId)).isEmpty then
    db ++ [⟨runId, dataset, "running", 0, none⟩]
  else db.map (fun r => if r.runId = runId then { r with status := "running" } else r)

/-- `update_sync_run` (ingest.py:321). -/
def update_sync_run (db : List SyncRow) (runId status : String) (rows : Nat)
    (error : Option String) : List SyncRow :=
  db.map (fun r =>
    if r.runId = runId then
      { r with status := status, rowsProcessed := rows, errorMessage := error }
    else r)

/-- Common shape of the four sync stages: `create_sync_run(f"{run_id}_{ds}",
ds)`, run the body, and on success `update_sync_run(..., "done", count)`.
A body exception propagates, leaving the row as created. -/
def runStage {α : Type} (db : List SyncRow) (runId dataset : String)
    (body : Except String (Nat × α)) : List SyncRow × Except String α :=
  let db1 := create_sync_run db (runId ++ "_" ++ dataset) dataset
  match body with
  | .ok ca => (update_sync_run db1 (runId ++ "_" ++ dataset) "done" ca.1 none, .ok ca.2)
  | .error e => (db1, .error e)

structure IngestOptions where
  expand_hops : Nat
  skip_crashes : Bool
  skip_inspections : Bool

/-- Abstracted stage bodies: each yields the processed-row count plus its
payload, or the exception it raises. -/
structure IngestOutcomes where
  seeds : Except String (Nat × List Nat)
  expand : List Nat → Except String (Nat × List Nat)
  crashes : List Nat → Except String Nat
  inspections : List Nat → Except String Nat

/-- `main` of ingest.py: the four stages in order inside one `try/except`;
the first exception aborts the remaining stages and exits 1. -/
def ingest_main (opts : IngestOptions) (oc : IngestOutcomes) (runId : String) :
    Nat × List SyncRow :=
  let st1 := runStage [] runId "census_seeds" oc.seeds
  match st1.2 with
  | .error _ => (1, st1.1)
  | .ok seed_dots =>
    let st2 :=
      if 1 ≤ opts.expand_hops ∧ seed_dots ≠ [] then
        runStage st1.1 runId "census_expand" (oc.expand seed_dots)
      else (st1.1, .ok seed_dots)
    match st2.2 with
    | .error _ => (1, st2.1)
    | .ok all_dots =>
      let st3 :=
        if ¬ opts.skip_crashes ∧ all_dots ≠ [] then
          runStage st2.1 runId "crashes" ((oc.crashes all_dots).map (fun n => (n, ())))
        else (st2.1, .ok ())
      match st3.2 with
      | .error _ => (1, st3.1)
      | .ok _ =>
        let st4 :=
          if ¬ opts.skip_inspections ∧ all_dots ≠ [] then
            runStage st3.1 runId "inspections"
              ((oc.inspections all_dots).map (fun n => (n, ())))
          else (st3.1, .ok ())
        match st4.2 with
        | .error _ => (1, st4.1)
        | .ok _ => (0, st4.1)

/-! ## Detection write-back and its commit points (detect.py:473-646)

Each write function is modelled as a transformation of the store state
returning the list of states made visible by its `conn.commit()` calls.
`gen_random_uuid()` for `CarrierCluster.id` is modelled by a counter. -/

structure LinkRow where
  dotA : Nat
  dotB : Nat
  score : Q
  reasons : List Reason
  runId : String
deriving DecidableEq, Repr

structure ClusterRow where
  dbId : Nat
  clusterId : String
  size : Nat
  edgeCount : Nat
  avgLinkScore : Q
  maxLinkScore : Q
  runId : String
deriving DecidableEq, Repr

structure MemberRow where
  clusterDbId : Nat
  dot : Nat
deriving DecidableEq, Repr

structure RiskRow where
  dot : Nat
  chameleonScore : Q
  safetyScore : Q
  compositeScore : Q
  clusterSize : Nat
deriving DecidableEq, Repr

structure DBState where
  links : List LinkRow
  clusters : List ClusterRow
  members : List MemberRow
  risks : List RiskRow
  nextId : Nat
deriving DecidableEq, Repr

/-- `write_links_to_db` (detect.py:473): no-op without pairs; else delete the
run's links, insert the new ones (scores rounded to 4 digits), commit once. -/
def write_links_to_db (s : DBState) (pair_scores : List ((Nat × Nat) × Q))
    (pair_reasons : List ((Nat × Nat) × List Reason)) (runId : String) :
    DBState × List DBState :=
  if pair_scores.isEmpty then (s, [])
  else
    let kept := s.links.filter (fun l => l.runId ≠ runId)
    let newLinks := pair_scores.map (fun ps =>
      LinkRow.mk ps.1.1 ps.1.2 (Q.roundTo 4 ps.2) ((alookup pair_reasons ps.1).getD []) runId)
    let s1 := { s with links := kept ++ newLinks }
    (s1, [s1])

/-- `write_clusters_to_db` (detect.py:508): delete the run's members and
clusters and COMMIT; then, if any multi-member cluster exists, insert all
cluster and member rows and commit again. -/
def write_clusters_to_db (s : DBState) (clusters : List Cluster) (runId : String) :
    DBState × List DBState :=
  let delIds := (s.clusters.filter (fun c => c.runId = runId)).map ClusterRow.dbId
  let s1 := { s with
    members := s.members.filter (fun m => ¬ m.clusterDbId ∈ delIds),
    clusters := s.clusters.filter (fun c => c.runId ≠ runId) }
  let multi := clusters.filter (fun c => 1 < c.size)
  if multi.isEmpty then (s1, [s1])
  else
    let s2 := multi.foldl
      (fun st cl =>
        let dbId := st.nextId
        { st with
          nextId := dbId + 1,
          clusters := st.clusters ++
            [⟨dbId, cl.cluster_id, cl.size, cl.edge_count, cl.avg_link_score,
              cl.max_link_score, runId⟩],
          members := st.members ++ cl.members.map (fun d => ⟨dbId, d⟩) })
      s1
    (s2, [s1, s2])

/-- `write_risk_scores_to_db` (detect.py:552): no-op without scores; else
delete every risk row and insert the new set in one committed transaction. -/
def write_risk_scores_to_db (s : DBState) (risk : List RiskScore) :
    DBState × List DBState :=
  if risk.isEmpty then (s, [])
  else
    let s1 := { s with risks := risk.map (fun r =>
      ⟨r.dot, r.chameleon_score, r.safety_score, r.composite_score, r.cluster_size⟩) }
    (s1, [s1])

/-- The write-back sequence of detect.py `main` (lines 629, 643-646): filter
meaningful links, then the three write functions.  Returns every state a
concurrent reader can observe: the prior state followed by each committed
state. -/
def detection_writeback (s0 : DBState) (m : PairMaps) (clusters : List Cluster)
    (risk : List RiskScore) (runId : String) : List DBState :=
  let meaningful := m.scores.filter (fun ps => (Q.ofNat 5).le ps.2)
  let w1 := write_links_to_db s0 meaningful m.reasons runId
  let w2 := write_clusters_to_db w1.1 clusters runId
  let w3 := write_risk_scores_to_db w2.1 risk
  s0 :: (w1.2 ++ w2.2 ++ w3.2)

/-! ## Laws of the helper functions -/

theorem alookup_aupd_eq {α β : Type} [DecidableEq α] (m : List (α × β)) (k : α)
    (d : β) (f : β → β) :
    alookup (aupd m k d f) k = some (f ((alookup m k).getD d)) := by
  induction m with
  | nil => simp [aupd, alookup]
  | cons hd tl ih =>
    obtain ⟨a, b⟩ := hd
    by_cases h : a = k
    · subst h
      simp [aupd, alookup]
    · simp [aupd, alookup, h, ih]

theorem alookup_aupd_ne {α β : Type} [DecidableEq α] (m : List (α × β)) (k k' : α)
    (d : β) (f : β → β) (h : k' ≠ k) :
    alookup (aupd m k d f) k' = alookup m k' := by
  have hkk : ¬ (k = k') := fun he => h he.symm
  induction m with
  | nil => simp [aupd, alookup, hkk]
  | cons hd tl ih =>
    obtain ⟨a, b⟩ := hd
    by_cases ha : a = k
    · subst ha
      simp [aupd, alookup, hkk]
    · by_cases ha' : a = k'
      · subst ha'
        simp [aupd, alookup, ha]
      · simp [aupd, alookup, ha, ha', ih]

theorem qsum_append_single (l : List Q) (x : Q) :
    qsum (l ++ [x]) = (qsum l).add x := by
  simp [qsum, List.foldl_append]

/-- Fold preservation of an invariant. -/
theorem foldl_preserve {α β : Type} (P : β → Prop) (step : β → α → β)
    (l : List α) (m : β) (hm : P m)
    (hstep : ∀ b a, a ∈ l → P b → P (step b a)) : P (l.foldl step m) := by
  induction l generalizing m with
  | nil => exact hm
  | cons x xs ih =>
    exact ih (step m x) (hstep m x (by simp) hm)
      (fun b a ha hb => hstep b a (by simp [ha]) hb)

theorem insertLE_perm {α : Type} (le : α → α → Bool) (x : α) (l : List α) :
    (insertLE le x l).Perm (x :: l) := by
  induction l with
  | nil => simp [insertLE]
  | cons y ys ih =>
    simp only [insertLE]
    by_cases h : le y x
    · simp only [h, if_true]
      exact (ih.cons y).trans (List.Perm.swap x y ys)
    · simp [h]

theorem sortLE_perm {α : Type} (le : α → α → Bool) (l : List α) :
    (sortLE le l).Perm l := by
  suffices h : ∀ (l acc : List α),
      (l.foldl (fun acc x => insertLE le x acc) acc).Perm (l ++ acc) by
    simpa using h l []
  intro l
  induction l with
  | nil => simp
  | cons x xs ih =>
    intro acc
    simp only [List.foldl_cons]
    refine (ih (insertLE le x acc)).trans ?_
    refine (List.Perm.append_left xs (insertLE_perm le x acc)).trans ?_
    exact List.perm_middle

theorem mem_sortLE {α : Type} (le : α → α → Bool) (l : List α) (x : α) :
    x ∈ sortLE le l ↔ x ∈ l := (sortLE_perm le l).mem_iff

theorem length_sortLE {α : Type} (le : α → α → Bool) (l : List α) :
    (sortLE le l).length = l.length := (sortLE_perm le l).length_eq

theorem insertLE_sorted {α : Type} (le : α → α → Bool)
    (htrans : ∀ a b c, le a b = true → le b c = true → le a c = true)
    (htotal : ∀ a b, le a b = true ∨ le b a = true)
    (x : α) (l : List α) (hl : l.Pairwise (fun a b => le a b = true)) :
    (insertLE le x l).Pairwise (fun a b => le a b = true) := by
  induction l with
  | nil => simp [insertLE]
  | cons y ys ih =>
    rcases List.pairwise_cons.mp hl with ⟨hy, hys⟩
    simp only [insertLE]
    by_cases h : le y x
    · simp only [h, if_true]
      refine List.pairwise_cons.mpr ⟨?_, ih hys⟩
      intro z hz
      rcases List.mem_cons.mp ((insertLE_perm le x ys).mem_iff.mp hz) with hz | hz
      · exact hz ▸ h
      · exact hy z hz
    · simp only [h, if_false]
      have hxy : le x y = true := by
        rcases htotal x y with ht | ht
        · exact ht
        · exact absurd ht (by simpa using h)
      refine List.pairwise_cons.mpr ⟨?_, hl⟩
      intro z hz
      rcases List.mem_cons.mp hz with hz | hz
      · exact hz ▸ hxy
      · exact htrans x y z hxy (hy z hz)

theorem sortLE_sorted {α : Type} (le : α → α → Bool)
    (htrans : ∀ a b c, le a b = true → le b c = true → le a c = true)
    (htotal : ∀ a b, le a b = true ∨ le b a = true)
    (l : List α) : (sortLE le l).Pairwise (fun a b => le a b = true) := by
  suffices h : ∀ (l acc : List α), acc.Pairwise (fun a b => le a b = true) →
      (l.foldl (fun acc x => insertLE le x acc) acc).Pairwise (fun a b => le a b = true) by
    exact h l [] (by simp)
  intro l
  induction l with
  | nil => intro acc h; exact h
  | cons x xs ih =>
    intro acc hacc
    exact ih (insertLE le x acc) (insertLE_sorted le htrans htotal x acc hacc)

/-! ## Claim C5: shape of `normalize_phone` -/

/-- C5 counterexample: `normalize_phone` is NOT always empty or exactly 10
digits; the input `"1234567"` has 7 digits, which is at least 7, so the code
keeps all 7 of them. -/
theorem C5_counterexample :
    ¬ (∀ s : String, normalize_phone s = "" ∨
        ((normalize_phone s).data.all Char.isDigit = true ∧
          (normalize_phone s).length = 10)) := by
  intro h
  rcases h "1234567" with h1 | h2
  · exact absurd h1 (by decide)
  · exact absurd h2.2 (by decide)

/-- C5 (amended): for every input string, `normalize_phone` returns either
the empty string or a string of 7 to 10 digits (all characters decimal
digits). -/
theorem C5_phone_shape (s : String) :
    normalize_phone s = "" ∨
      ((normalize_phone s).data.all Char.isDigit = true ∧
        7 ≤ (normalize_phone s).length ∧ (normalize_phone s).length ≤ 10) := by
  unfold normalize_phone
  by_cases h : (s.data.filter Char.isDigit).isEmpty ||
      (s.data.filter Char.isDigit).length < 7
  · left
    simp [h]
  · right
    have h' := h
    simp only [Bool.or_eq_true, not_or, Bool.not_eq_true, decide_eq_true_eq] at h'
    obtain ⟨-, h2⟩ := h'
    have h7 : 7 ≤ (s.data.filter Char.isDigit).length := by omega
    simp only [h, if_false]
    refine ⟨?_, ?_, ?_⟩
    · rw [List.all_eq_true]
      intro c hc
      have hmem : c ∈ s.data.filter Char.isDigit := List.mem_of_mem_drop hc
      exact (List.mem_filter.mp hmem).2
    · show 7 ≤ (String.mk _).length
      simp only [String.length, List.length_drop]
      omega
    · show (String.mk _).length ≤ 10
      simp only [String.length, List.length_drop]
      omega

/-! ## Claim C8: the HTTP retry budget -/

/-- An attempt oracle whose first three attempts fail and whose fourth would
succeed. -/
def failingAttempts (n : Nat) : Except String Nat :=
  if n < 3 then .error "timeout" else .ok 0

/-- C8 counterexample: after three consecutive failures the fetch has already
raised (having waited 2s and 4s), even though a fourth attempt would have
succeeded — so it is the third failure, not the fourth, that surfaces. -/
theorem C8_counterexample :
    (socrata_fetch failingAttempts).1 = .error "timeout" ∧
    failingAttempts 3 = .ok 0 ∧
    (socrata_fetch failingAttempts).2 = [2, 4] :=
  ⟨rfl, rfl, rfl⟩

/-- C8 (amended): every HTTP query makes at most 3 attempts (the initial try
plus 2 retries) with exponential backoff waits of 2s then 4s; the third
consecutive failure propagates out of `socrata_fetch`. -/
theorem C8_retry_policy {α : Type} (outcome : Nat → Except String α)
    (e0 e1 e2 : String)
    (h0 : outcome 0 = .error e0) (h1 : outcome 1 = .error e1)
    (h2 : outcome 2 = .error e2) :
    socrata_fetch outcome = (.error e2, [2, 4]) := by
  have hr : List.range 3 = [0, 1, 2] := rfl
  simp [socrata_fetch, fetchLoop, hr, h0, h1, h2]

/-- Witness for C8_retry_policy at the concrete all-failing oracle. -/
theorem C8_retry_policy_witness :
    socrata_fetch failingAttempts = ((.error "timeout" : Except String Nat), [2, 4]) :=
  C8_retry_policy failingAttempts "timeout" "timeout" "timeout" rfl rfl rfl

/-! ## Claim C6: stage failure handling in ingest `main` -/

/-- An outcome set where stage 1 succeeds and stage 2 raises. -/
def ocStage2Fails : IngestOutcomes :=
  { seeds := .ok (3, [1, 2]),
    expand := fun _ => .error "HTTP 500",
    crashes := fun _ => .ok 5,
    inspections := fun _ => .ok 7 }

def defaultIngestOptions : IngestOptions := ⟨1, false, false⟩

/-- C6 counterexample: when stage 2 fails, no `SyncRun` row is ever marked
`failed` and no error message is recorded (the failing stage's row stays
`running`), the later stages create no rows at all, and the run exits 1 —
contradicting both the `running → failed{error_message}` transition and
"later stages may still run". -/
theorem C6_counterexample :
    (∀ r ∈ (ingest_main defaultIngestOptions ocStage2Fails "R").2,
        r.status ≠ "failed" ∧ r.errorMessage = none) ∧
    (ingest_main defaultIngestOptions ocStage2Fails "R").2.map SyncRow.dataset
      = ["census_seeds", "census_expand"] ∧
    (ingest_main defaultIngestOptions ocStage2Fails "R").1 = 1 := by
  decide

/-- Strings with a common prefix and different suffixes differ. -/
theorem string_append_ne (r : String) {a b : String} (h : a ≠ b) :
    r ++ a ≠ r ++ b := by
  intro he
  apply h
  obtain ⟨rl⟩ := r
  obtain ⟨al⟩ := a
  obtain ⟨bl⟩ := b
  have hd : rl ++ al = rl ++ bl := congrArg String.data he
  exact congrArg String.mk (List.append_cancel_left hd)

/-- C6 (amended): a stage failure propagates to the single `try/except` of
`main`: the run exits 1, the failing stage's `SyncRun` row remains in status
`running` with no error message recorded (no code path ever writes
`failed`), later stages do not run, and the completed earlier stages' `done`
rows persist.  Shown for a failure in stage 2. -/
theorem C6_stage_failure (opts : IngestOptions) (oc : IngestOutcomes) (runId : String)
    (count : Nat) (seeds : List Nat) (e : String)
    (h1 : oc.seeds = .ok (count, seeds))
    (h2 : oc.expand seeds = .error e)
    (hhops : 1 ≤ opts.expand_hops) (hseeds : seeds ≠ []) :
    ingest_main opts oc runId =
      (1, [⟨runId ++ "_" ++ "census_seeds", "census_seeds", "done", count, none⟩,
           ⟨runId ++ "_" ++ "census_expand", "census_expand", "running", 0, none⟩]) := by
  have hne : runId ++ "_" ++ "census_seeds" ≠ runId ++ "_" ++ "census_expand" :=
    string_append_ne (runId ++ "_") (by decide)
  simp [ingest_main, runStage, create_sync_run, update_sync_run, h1, h2,
    hhops, hseeds, hne]

/-- Witness for C6_stage_failure at the concrete outcome set. -/
theorem C6_stage_failure_witness :
    ingest_main defaultIngestOptions ocStage2Fails "R" =
      (1, [⟨"R" ++ "_" ++ "census_seeds", "census_seeds", "done", 3, none⟩,
           ⟨"R" ++ "_" ++ "census_expand", "census_expand", "running", 0, none⟩]) :=
  C6_stage_failure defaultIngestOptions ocStage2Fails "R" 3 [1, 2] "HTTP 500"
    rfl rfl (by decide) (by decide)

/-! ## Claim C1: the two-carrier end-to-end scenario -/

def carrierA : Carrier :=
  { dot := 1, phone := "555-100-0001", fax := "", cell_phone := "",
    phy_street := "10 First Street", phy_city := "Austin", phy_state := "TX",
    officer1 := "ACME HOLDINGS", officer2 := "", status_code := "ACTIVE",
    prior_revoke_flag := "", prior_revoke_dot := none,
    add_date := some ⟨2024, 1, 1⟩, power_units := none,
    vins := [], crash_count := 0, fatalities := 0 }

def carrierB : Carrier :=
  { dot := 2, phone := "5551000001", fax := "", cell_phone := "",
    phy_street := "10 First St", phy_city := "Austin", phy_state := "TX",
    officer1 := "ACME HOLDINGS", officer2 := "", status_code := "OUT OF SERVICE",
    prior_revoke_flag := "", prior_revoke_dot := none,
    add_date := some ⟨2024, 2, 10⟩, power_units := none,
    vins := [], crash_count := 0, fatalities := 0 }

def scenario1 : PairMaps × List Cluster × List RiskScore :=
  run_detection [carrierA, carrierB] (Q.ofNat 30)

/-- C1: for the two-carrier input A(dot 1)/B(dot 2) with shared phone,
officer and address, B inactive and 40 days apart, the pipeline produces
exactly one link, for the pair (1,2), with reason contributions officer 55,
phone 40, address 25 and address_new_dot 40, total score 160; one
multi-member cluster of size 2 with id C0001; and for carrier A a chameleon
score of 10 carrying only the max-link signal (the cluster of size 2 < 3
contributes nothing), safety 0 and composite 7.00. -/
theorem C1_two_carrier_scenario :
    scenario1.1.scores.map Prod.fst = [(1, 2)] ∧
    ((alookup scenario1.1.scores (1, 2)).getD Q.zero).toRat = 160 ∧
    ((alookup scenario1.1.reasons (1, 2)).getD []).map
        (fun r => (r.feature, r.contribution.toRat))
      = [("officer", 55), ("phone", 40), ("address", 25), ("address_new_dot", 40)] ∧
    (scenario1.2.1.filter (fun c => 1 < c.size)).map (fun c => (c.cluster_id, c.size))
      = [("C0001", 2)] ∧
    scenario1.2.2.head?.map (fun r =>
        (r.dot, r.chameleon_score.toRat, r.safety_score.toRat, r.composite_score.toRat,
          r.signals, r.cluster_size))
      = some (1, 10, 0, 7, ["max_link_160"], 2) := by
  refine ⟨by decide, ?_, ?_, by decide, ?_⟩
  · have h : (alookup scenario1.1.scores (1, 2)).getD Q.zero = ⟨1280, 8, by omega⟩ := by
      decide
    rw [h]
    norm_num [Q.toRat]
  · have h : (alookup scenario1.1.reasons (1, 2)).getD [] =
        [⟨"officer", "ACME HOLDINGS", 2, ⟨550000, 10000, by omega⟩⟩,
         ⟨"phone", "5551000001", 2, ⟨400000, 10000, by omega⟩⟩,
         ⟨"address", "10 first st | austin | tx", 2, ⟨250000, 10000, by omega⟩⟩,
         ⟨"address_new_dot", "Same address, 40d apart, one inactive", 2,
           ⟨400000, 10000, by omega⟩⟩] := by decide
    rw [h]
    norm_num [Q.toRat]
  · have h : scenario1.2.2.head? =
        some ⟨1, ⟨1000, 100, by omega⟩, ⟨0, 100, by omega⟩, ⟨700, 100, by omega⟩,
          ["max_link_160"], 2⟩ := by decide
    rw [h]
    norm_num [Q.toRat]

/-! ## Claim C7: transactional boundary of the write-back -/

/-- Equality of the derived tables a reader of the store sees. -/
def derivedEq (s t : DBState) : Prop :=
  s.links = t.links ∧ s.clusters = t.clusters ∧ s.members = t.members ∧ s.risks = t.risks

instance (s t : DBState) : Decidable (derivedEq s t) := by
  unfold derivedEq
  infer_instance

def wbMaps : PairMaps :=
  { scores := [((1, 2), Q.ofNat 160)],
    reasons := [((1, 2), [⟨"officer", "ACME HOLDINGS", 2, Q.ofNat 55⟩])] }

def wbClusters : List Cluster := [⟨"C0001", 2, [1, 2], 1, Q.ofNat 160, Q.ofNat 160⟩]

def wbRisk : List RiskScore := [⟨1, Q.ofNat 10, Q.zero, Q.ofNat 7, [], 2⟩]

def priorDB : DBState :=
  ⟨[⟨3, 4, Q.ofNat 50, [], "prev"⟩],
   [⟨0, "C0001", 2, 1, Q.ofNat 50, Q.ofNat 50, "prev"⟩],
   [⟨0, 3⟩, ⟨0, 4⟩],
   [⟨3, Q.ofNat 5, Q.zero, Q.ofNat 3, 2⟩], 1⟩

def wbSnapshots : List DBState :=
  detection_writeback priorDB wbMaps wbClusters wbRisk "run2"

/-- C7 counterexample: the write-back is not a single transaction.  For a
concrete prior store and one new link/cluster/risk row, some committed
intermediate state differs, in its derived tables, from both the prior
state and the final state (e.g. the state after the links commit already
has the new link but still carries the prior risk table). -/
theorem C7_counterexample :
    ¬ (∀ s ∈ wbSnapshots,
        derivedEq s priorDB ∨ derivedEq s (wbSnapshots.getLastD priorDB)) := by
  decide

/-- C7 (amended): the write-back commits four times — after the link
rewrite, after the cluster delete, after the cluster/member inserts, and
after the risk rewrite.  Between commits a reader observes mixed states:
the state committed by `write_links_to_db` still carries the prior risk
table, and the state committed by the cluster delete additionally has no
clusters at all for the run being written. -/
theorem C7_commit_points (s0 : DBState) (m : PairMaps) (clusters : List Cluster)
    (risk : List RiskScore) (runId : String)
    (hm : m.scores.filter (fun ps => (Q.ofNat 5).le ps.2) ≠ [])
    (hc : clusters.filter (fun c => 1 < c.size) ≠ [])
    (hr : risk ≠ []) :
    (detection_writeback s0 m clusters risk runId).length = 5 ∧
    ((detection_writeback s0 m clusters risk runId).getD 1 s0).risks = s0.risks ∧
    ((detection_writeback s0 m clusters risk runId).getD 2 s0).risks = s0.risks ∧
    ((detection_writeback s0 m clusters risk runId).getD 2 s0).clusters.filter
      (fun c => c.runId = runId) = [] := by
  have hm' : (m.scores.filter (fun ps => (Q.ofNat 5).le ps.2)).isEmpty = false := by
    simpa [List.isEmpty_iff] using hm
  have hc' : (clusters.filter (fun c => 1 < c.size)).isEmpty = false := by
    simpa [List.isEmpty_iff] using hc
  have hr' : risk.isEmpty = false := by
    simpa [List.isEmpty_iff] using hr
  have hff : ∀ (l : List ClusterRow),
      (l.filter (fun c => ¬ c.runId = runId)).filter (fun c => c.runId = runId) = [] := by
    intro l
    rw [List.filter_eq_nil_iff]
    intro c hcmem
    have := (List.mem_filter.mp hcmem).2
    simpa using this
  refine ⟨?_, ?_, ?_, ?_⟩ <;>
    simp [detection_writeback, write_links_to_db, write_clusters_to_db,
      write_risk_scores_to_db, hm', hc', hr', hff]

/-- Witness for C7_commit_points at the concrete write-back input. -/
theorem C7_commit_points_witness :
    (detection_writeback priorDB wbMaps wbClusters wbRisk "run2").length = 5 ∧
    ((detection_writeback priorDB wbMaps wbClusters wbRisk "run2").getD 1 priorDB).risks
      = priorDB.risks ∧
    ((detection_writeback priorDB wbMaps wbClusters wbRisk "run2").getD 2 priorDB).risks
      = priorDB.risks ∧
    ((detection_writeback priorDB wbMaps wbClusters wbRisk "run2").getD 2 priorDB).clusters.filter
      (fun c => c.runId = "run2") = [] :=
  C7_commit_points priorDB wbMaps wbClusters wbRisk "run2" (by decide) (by decide) (by decide)

/-! ## Claim C2: reason contributions versus accumulated score

`addPair` appends `round(contribution, 4)` to the reason list while adding
the unrounded contribution to the score, so the recorded sum can drift from
the score by up to half an ulp of the fourth decimal per reason. -/

def idxPhone3 : Index := [("phone", [("5550000000", [1, 2, 3])])]

def mapsPhone3 : PairMaps := detect_temporal_signals [] (score_pairwise_links idxPhone3)

/-- C2 counterexample: with one phone value shared by three carriers, the
pair (1,2) has score `40 · 2/3 = 80/3` but its single recorded reason
carries `round(80/3, 4) = 26.6667`; they differ by `1/30000 > 1e-6`. -/
theorem C2_counterexample :
    ¬ |(qsum (((alookup mapsPhone3.reasons (1, 2)).getD []).map Reason.contribution)).toRat
        - ((alookup mapsPhone3.scores (1, 2)).getD Q.zero).toRat| ≤ 1 / 1000000 := by
  have h1 : (alookup mapsPhone3.scores (1, 2)).getD Q.zero = ⟨80, 3, by omega⟩ := by decide
  have h2 : qsum (((alookup mapsPhone3.reasons (1, 2)).getD []).map Reason.contribution)
      = ⟨266667, 10000, by omega⟩ := by decide
  rw [h1, h2]
  simp only [Q.toRat]
  rw [show ((266667 : Int) : ℚ) / ((10000 : Nat) : ℚ) - ((80 : Int) : ℚ) / ((3 : Nat) : ℚ)
      = 1 / 30000 by norm_num]
  rw [abs_of_pos (by norm_num)]
  norm_num

/-- The invariant relating recorded reason sums to accumulated scores. -/
def reasonSumOK (m : PairMaps) : Prop :=
  ∀ p : Nat × Nat,
    |(qsum (((alookup m.reasons p).getD []).map Reason.contribution)).toRat
        - ((alookup m.scores p).getD Q.zero).toRat|
      ≤ (((alookup m.reasons p).getD []).length : ℚ) / 20000

theorem reasonSumOK_empty : reasonSumOK ⟨[], []⟩ := by
  intro p
  simp [alookup, qsum, Q.toRat_zero]

theorem reasonSumOK_addPair (m : PairMaps) (pair : Nat × Nat) (feature value : String)
    (freq : Nat) (c : Q) (hm : reasonSumOK m) :
    reasonSumOK (addPair m pair feature value freq c) := by
  intro p
  by_cases hp : p = pair
  · subst hp
    have hs : alookup (addPair m p feature value freq c).scores p
        = some (((alookup m.scores p).getD Q.zero).add c) := by
      simpa [addPair] using alookup_aupd_eq m.scores p Q.zero (fun s => s.add c)
    have hrr : alookup (addPair m p feature value freq c).reasons p
        = some ((alookup m.reasons p).getD []
            ++ [⟨feature, value, freq, Q.roundTo 4 c⟩]) := by
      simpa [addPair] using alookup_aupd_eq m.reasons p []
        (fun rs => rs ++ [⟨feature, value, freq, Q.roundTo 4 c⟩])
    rw [hs, hrr]
    simp only [Option.getD_some, List.map_append, List.map_cons, List.map_nil,
      List.length_append, List.length_cons, List.length_nil]
    rw [qsum_append_single, Q.toRat_add, Q.toRat_add]
    have h1 := hm p
    have h2 : |(Q.roundTo 4 c).toRat - c.toRat| ≤ 1 / 20000 := by
      have := Q.abs_roundTo_sub 4 c
      calc |(Q.roundTo 4 c).toRat - c.toRat| ≤ 1 / (2 * (10 ^ 4 : ℚ)) := this
        _ = 1 / 20000 := by norm_num
    calc |((qsum (((alookup m.reasons p).getD []).map Reason.contribution)).toRat
            + (Q.roundTo 4 c).toRat)
          - (((alookup m.scores p).getD Q.zero).toRat + c.toRat)|
        = |((qsum (((alookup m.reasons p).getD []).map Reason.contribution)).toRat
            - ((alookup m.scores p).getD Q.zero).toRat)
          + ((Q.roundTo 4 c).toRat - c.toRat)| := by congr 1; ring
      _ ≤ |(qsum (((alookup m.reasons p).getD []).map Reason.contribution)).toRat
            - ((alookup m.scores p).getD Q.zero).toRat|
          + |(Q.roundTo 4 c).toRat - c.toRat| := abs_add _ _
      _ ≤ (((alookup m.reasons p).getD []).length : ℚ) / 20000 + 1 / 20000 :=
          add_le_add h1 h2
      _ = ((((alookup m.reasons p).getD []).length : ℚ) + 1) / 20000 := by ring
      _ = ((((alookup m.reasons p).getD []).length + 0 + 1 : ℕ) : ℚ) / 20000 := by
          push_cast; ring
  · have hs : alookup (addPair m pair feature value freq c).scores p
        = alookup m.scores p := by
      simpa [addPair] using alookup_aupd_ne m.scores pair p Q.zero _ hp
    have hrr : alookup (addPair m pair feature value freq c).reasons p
        = alookup m.reasons p := by
      simpa [addPair] using alookup_aupd_ne m.reasons pair p [] _ hp
    rw [hs, hrr]
    exact hm p

theorem reasonSumOK_scoreBucket (feature : String) (c : Q) (freq : Nat)
    (value : String) (members : List Nat) (m : PairMaps) (hm : reasonSumOK m) :
    reasonSumOK (scoreBucket feature c freq value members m) := by
  unfold scoreBucket
  exact foldl_preserve reasonSumOK _ _ m hm
    (fun b ab _ hb => reasonSumOK_addPair b (normPair ab) _ _ _ _ hb)

theorem reasonSumOK_score_pairwise (index : Index) :
    reasonSumOK (score_pairwise_links index) := by
  unfold score_pairwise_links
  refine foldl_preserve reasonSumOK _ _ _ reasonSumOK_empty ?_
  intro b feature _ hb
  by_cases h1 : feature = "address_new_dot" ∨ feature = "fleet_anomaly"
  · simpa [h1] using hb
  · simp only [h1, if_false]
    refine foldl_preserve reasonSumOK _ _ _ hb ?_
    intro b' vm _ hb'
    by_cases h2 : vm.2.length < 2
    · simpa [h2] using hb'
    · simp only [h2, if_false]
      by_cases h3 : ((FEATURE_WEIGHTS feature).mul (rarity_weight vm.2.length)).le Q.zero
      · simpa [h3] using hb'
      · simpa [h3] using reasonSumOK_scoreBucket feature _ _ _ _ _ hb'

theorem reasonSumOK_temporalStep (m : PairMaps) (x y : Nat × Option CDate × String)
    (hm : reasonSumOK m) : reasonSumOK (temporalStep m x y) := by
  unfold temporalStep
  by_cases h1 : x.1 = y.1
  · simpa [h1] using hm
  · simp only [h1, if_false]
    by_cases h2 : ¬ (statusInactive x.2.2 || statusInactive y.2.2)
    · simpa [h2] using hm
    · simp only [h2, if_false]
      match hx : x.2.1, hy : y.2.1 with
      | some da, some db =>
        by_cases h3 : (dateDays da - dateDays db).natAbs ≤ 180
        · simpa [h3] using reasonSumOK_addPair m _ _ _ _ _ hm
        · simpa [h3] using hm
      | some da, none => exact hm
      | none, some db => exact hm
      | none, none => exact hm

theorem reasonSumOK_detect_temporal (carriers : List Carrier) (m : PairMaps)
    (hm : reasonSumOK m) : reasonSumOK (detect_temporal_signals carriers m) := by
  unfold detect_temporal_signals
  refine foldl_preserve reasonSumOK _ _ m hm ?_
  intro b av _ hb
  by_cases h : av.2.length < 2
  · simpa [h] using hb
  · simp only [h, if_false]
    exact foldl_preserve reasonSumOK _ _ b hb
      (fun b' xy _ hb' => reasonSumOK_temporalStep b' xy.1 xy.2 hb')

/-- C2 (amended): for every pair in the maps produced by the pairwise scorer
followed by the temporal augmenter, the sum of the recorded (4-decimal
rounded) reason contributions differs from the accumulated score by at most
`5·10⁻⁵` per reason — not by at most `1e-6`; the unrounded contributions sum
to the score exactly. -/
theorem C2_reason_sum_bound (index : Index) (carriers : List Carrier) (p : Nat × Nat) :
    |(qsum (((alookup (detect_temporal_signals carriers
            (score_pairwise_links index)).reasons p).getD []).map Reason.contribution)).toRat
        - ((alookup (detect_temporal_signals carriers
            (score_pairwise_links index)).scores p).getD Q.zero).toRat|
      ≤ (((alookup (detect_temporal_signals carriers
            (score_pairwise_links index)).reasons p).getD []).length : ℚ) / 20000 :=
  reasonSumOK_detect_temporal carriers _ (reasonSumOK_score_pairwise index) p

/-! ## Claim C3: cluster ordering and id assignment -/

/-- Lexicographic `≤` on member lists, as the spec's
`members_tuple_ascending` tie-break would compare them. -/
def listLexLE : List Nat → List Nat → Bool
  | [], _ => true
  | _ :: _, [] => false
  | a :: as, b :: bs => if a < b then true else if b < a then false else listLexLE as bs

/-- The ordering claimed by the spec: `(-size, -max_link_score,
members_tuple_ascending)`. -/
def specClusterLE (c d : Cluster) : Bool :=
  (decide (d.size < c.size)) ||
    ((decide (c.size = d.size)) &&
      ((d.max_link_score.lt c.max_link_score) ||
        (((d.max_link_score.le c.max_link_score) && (c.max_link_score.le d.max_link_score))
          && listLexLE c.members d.members)))

/-- Pair scores in the insertion order an officer bucket for carriers 5 and 9
followed by phone buckets would produce: the resulting union-find roots are
5 for the group 1-5-9 and 2 for the group 2-3-4. -/
def psC3 : List ((Nat × Nat) × Q) :=
  [((5, 9), Q.ofNat 55), ((1, 5), Q.ofNat 40), ((2, 3), Q.ofNat 55), ((2, 4), Q.ofNat 40)]

/-- C3 counterexample: the cluster list is NOT sorted with the
members-tuple tie-break.  Two size-3 clusters with equal max link score 55
come out in union-find-root order — members `[2,3,4]` (root 2) before
`[1,5,9]` (root 5) — although `(1,5,9) < (2,3,4)` lexicographically; the ids
C0001/C0002 follow that code order, not the claimed order. -/
theorem C3_counterexample :
    ¬ ((compute_clusters psC3 [1, 2, 3, 4, 5, 9] (Q.ofNat 30)).Pairwise
        (fun c d => specClusterLE c d = true)) ∧
    (compute_clusters psC3 [1, 2, 3, 4, 5, 9] (Q.ofNat 30)).map Cluster.members
      = [[2, 3, 4], [1, 5, 9]] ∧
    (compute_clusters psC3 [1, 2, 3, 4, 5, 9] (Q.ofNat 30)).map Cluster.cluster_id
      = ["C0001", "C0002"] := by decide

theorem clusterLE_trans (a b c : Cluster) (h1 : clusterLE a b = true)
    (h2 : clusterLE b c = true) : clusterLE a c = true := by
  simp only [clusterLE, Bool.or_eq_true, Bool.and_eq_true, decide_eq_true_eq] at *
  rcases h1 with h1 | ⟨h1, h1'⟩ <;> rcases h2 with h2 | ⟨h2, h2'⟩
  · left; omega
  · left; omega
  · left; omega
  · right; exact ⟨by omega, Q.le_trans' h2' h1'⟩

theorem clusterLE_total (a b : Cluster) : clusterLE a b = true ∨ clusterLE b a = true := by
  simp only [clusterLE, Bool.or_eq_true, Bool.and_eq_true, decide_eq_true_eq]
  rcases Nat.lt_trichotomy a.size b.size with h | h | h
  · right; left; exact h
  · have htot := Q.le_total' a.max_link_score b.max_link_score
    rw [Bool.or_eq_true] at htot
    rcases htot with hle | hle
    · right; right; exact ⟨h.symm, hle⟩
    · left; right; exact ⟨h, hle⟩
  · left; left; exact h

theorem mem_assignIds : ∀ (i : Nat) (l : List Cluster), ∀ x ∈ assignIds i l,
    ∃ c ∈ l, x.size = c.size ∧ x.max_link_score = c.max_link_score := by
  intro i l
  induction l generalizing i with
  | nil => intro x hx; simp [assignIds] at hx
  | cons c cs ih =>
    intro x hx
    rcases List.mem_cons.mp hx with hx | hx
    · exact ⟨c, by simp, by simp [hx], by simp [hx]⟩
    · obtain ⟨d, hd, h1, h2⟩ := ih (i + 1) x hx
      exact ⟨d, by simp [hd], h1, h2⟩

theorem clusterLE_congr {c c' d d' : Cluster} (hs : c.size = c'.size)
    (hm : c.max_link_score = c'.max_link_score) (hs' : d.size = d'.size)
    (hm' : d.max_link_score = d'.max_link_score) :
    clusterLE c d = clusterLE c' d' := by
  simp [clusterLE, hs, hm, hs', hm']

theorem assignIds_pairwise : ∀ (i : Nat) (l : List Cluster),
    l.Pairwise (fun c d => clusterLE c d = true) →
    (assignIds i l).Pairwise (fun c d => clusterLE c d = true) := by
  intro i l
  induction l generalizing i with
  | nil => intro _; simp [assignIds]
  | cons c cs ih =>
    intro hl
    rcases List.pairwise_cons.mp hl with ⟨hc, hcs⟩
    refine List.pairwise_cons.mpr ⟨?_, ih (i + 1) hcs⟩
    intro x hx
    obtain ⟨d, hd, h1, h2⟩ := mem_assignIds (i + 1) cs x hx
    have : clusterLE { c with cluster_id := "C" ++ pad4 i } x = clusterLE c d :=
      clusterLE_congr rfl rfl h1 h2
    rw [this]
    exact hc d hd

theorem assignIds_ids : ∀ (i : Nat) (l : List Cluster),
    (assignIds i l).map Cluster.cluster_id
      = (List.range l.length).map (fun k => "C" ++ pad4 (i + k)) := by
  intro i l
  induction l generalizing i with
  | nil => simp [assignIds]
  | cons c cs ih =>
    simp only [assignIds, List.map_cons, List.length_cons, List.range_succ_eq_map,
      List.map_map]
    refine congrArg₂ List.cons (by simp) ?_
    rw [ih (i + 1)]
    refine List.map_congr_left ?_
    intro k _
    have harith : i + 1 + k = i + (k + 1) := by omega
    simp [Function.comp, harith]

theorem assignIds_length : ∀ (i : Nat) (l : List Cluster),
    (assignIds i l).length = l.length := by
  intro i l
  induction l generalizing i with
  | nil => rfl
  | cons c cs ih => simp [assignIds, ih]

/-- C3 (amended): the cluster list is sorted by `(-size, -max_link_score)`
only; remaining ties keep the prior order of the list, which is ascending
union-find root order (the root need not be the smallest member), and ids
C0001, C0002, … are assigned in exactly that order. -/
theorem C3_cluster_order (pair_scores : List ((Nat × Nat) × Q)) (all_dots : List Nat)
    (threshold : Q) :
    (compute_clusters pair_scores all_dots threshold).Pairwise
      (fun c d => clusterLE c d = true) ∧
    (compute_clusters pair_scores all_dots threshold).map Cluster.cluster_id
      = (List.range (compute_clusters pair_scores all_dots threshold).length).map
          (fun k => "C" ++ pad4 (1 + k)) := by
  constructor
  · unfold compute_clusters
    exact assignIds_pairwise 1 _
      (sortLE_sorted clusterLE clusterLE_trans clusterLE_total _)
  · unfold compute_clusters
    rw [assignIds_ids, assignIds_length]

/-! ## Claim C9: at most one `address_new_dot` bonus per pair -/

/-- Number of `address_new_dot` reasons recorded for a pair. -/
def countAND (m : PairMaps) (p : Nat × Nat) : Nat :=
  (((alookup m.reasons p).getD []).filter (fun r => r.feature = "address_new_dot")).length

theorem countAND_addPair (m : PairMaps) (pair : Nat × Nat) (f v : String)
    (freq : Nat) (c : Q) (p : Nat × Nat) :
    countAND (addPair m pair f v freq c) p
      = countAND m p + (if p = pair ∧ f = "address_new_dot" then 1 else 0) := by
  by_cases hp : p = pair
  · subst hp
    have hrr : alookup (addPair m p f v freq c).reasons p
        = some ((alookup m.reasons p).getD [] ++ [⟨f, v, freq, Q.roundTo 4 c⟩]) := by
      simpa [addPair] using alookup_aupd_eq m.reasons p []
        (fun rs => rs ++ [⟨f, v, freq, Q.roundTo 4 c⟩])
    unfold countAND
    rw [hrr]
    simp only [Option.getD_some, List.filter_append, List.length_append]
    by_cases hf : f = "address_new_dot"
    · simp [hf, List.filter]
    · simp [hf, List.filter]
  · have hrr : alookup (addPair m pair f v freq c).reasons p = alookup m.reasons p := by
      simpa [addPair] using alookup_aupd_ne m.reasons pair p [] _ hp
    unfold countAND
    rw [hrr]
    simp [hp]

theorem countAND_empty (p : Nat × Nat) : countAND ⟨[], []⟩ p = 0 := by
  simp [countAND, alookup]

/-- The pairwise scorer records no `address_new_dot` reason (the feature is
skipped by the guard at detect.py:236). -/
theorem countAND_score_pairwise (index : Index) (p : Nat × Nat) :
    countAND (score_pairwise_links index) p = 0 := by
  suffices h : (∀ q, countAND (score_pairwise_links index) q = 0) from h p
  unfold score_pairwise_links
  refine foldl_preserve (fun m => ∀ q, countAND m q = 0) _ _ _ (fun q => countAND_empty q) ?_
  intro b feature _ hb
  by_cases h1 : feature = "address_new_dot" ∨ feature = "fleet_anomaly"
  · simpa [h1] using hb
  · simp only [h1, if_false]
    refine foldl_preserve (fun m => ∀ q, countAND m q = 0) _ _ _ hb ?_
    intro b' vm _ hb'
    by_cases h2 : vm.2.length < 2
    · simpa [h2] using hb'
    · simp only [h2, if_false]
      by_cases h3 : ((FEATURE_WEIGHTS feature).mul (rarity_weight vm.2.length)).le Q.zero
      · simpa [h3] using hb'
      · simp only [h3, if_false]
        unfold scoreBucket
        refine foldl_preserve (fun m => ∀ q, countAND m q = 0) _ _ _ hb' ?_
        intro b'' ab _ hb'' q
        rw [countAND_addPair, hb'' q]
        have hfne : feature ≠ "address_new_dot" := fun he => h1 (Or.inl he)
        simp [hfne]

/-- The pair key the temporal inner loop would record for one entry pair,
if its conditions hold. -/
def temporalKey (x y : Nat × Option CDate × String) : Option (Nat × Nat) :=
  if x.1 = y.1 then none
  else if ¬ (statusInactive x.2.2 || statusInactive y.2.2) then none
  else
    match x.2.1, y.2.1 with
    | some da, some db =>
      if (dateDays da - dateDays db).natAbs ≤ 180 then some (normPair (x.1, y.1)) else none
    | _, _ => none

theorem countAND_temporalStep (m : PairMaps) (x y : Nat × Option CDate × String)
    (p : Nat × Nat) :
    countAND (temporalStep m x y) p
      = countAND m p + (if temporalKey x y = some p then 1 else 0) := by
  unfold temporalStep temporalKey
  by_cases h1 : x.1 = y.1
  · simp [h1]
  · simp only [h1, if_false]
    by_cases h2 : ¬ (statusInactive x.2.2 || statusInactive y.2.2)
    · simp [h2]
    · simp only [h2, if_false]
      match x.2.1, y.2.1 with
      | some da, some db =>
        by_cases h3 : (dateDays da - dateDays db).natAbs ≤ 180
        · simp only [h3, if_true]
          rw [countAND_addPair]
          by_cases hp : p = normPair (x.1, y.1)
          · simp [hp]
          · have hps : ¬ normPair (x.1, y.1) = p := fun he => hp he.symm
            simp [hp, hps]
        · simp [h3]
      | some da, none => simp
      | none, some db => simp
      | none, none => simp

/-- The pairs one address bucket emits. -/
def bucketEmits (entries : List (Nat × Option CDate × String)) : List (Nat × Nat) :=
  (combinations2 entries).filterMap (fun xy => temporalKey xy.1 xy.2)

theorem countAND_fold_steps (L : List ((Nat × Option CDate × String) × (Nat × Option CDate × String)))
    (m : PairMaps) (p : Nat × Nat) :
    countAND (L.foldl (fun m xy => temporalStep m xy.1 xy.2) m) p
      = countAND m p + (L.filterMap (fun xy => temporalKey xy.1 xy.2)).count p := by
  induction L generalizing m with
  | nil => simp
  | cons xy xs ih =>
    simp only [List.foldl_cons, List.filterMap_cons]
    rw [ih]
    rw [countAND_temporalStep]
    cases hk : temporalKey xy.1 xy.2 with
    | none => simp [hk]
    | some q =>
      by_cases hq : q = p
      · subst hq
        simp [hk, List.count_cons]
        omega
      · simp [hk, List.count_cons, hq, fun he : some q = some p => hq (Option.some.inj he)]

/-- All pairs the temporal augmenter emits, bucket by bucket. -/
def emittedPairs (carriers : List Carrier) : List (Nat × Nat) :=
  (addrEntries carriers).flatMap
    (fun av => if av.2.length < 2 then [] else bucketEmits av.2)

theorem countAND_detect_temporal (carriers : List Carrier) (m : PairMaps) (p : Nat × Nat) :
    countAND (detect_temporal_signals carriers m) p
      = countAND m p + (emittedPairs carriers).count p := by
  unfold detect_temporal_signals emittedPairs
  generalize addrEntries carriers = B
  induction B generalizing m with
  | nil => simp
  | cons av rest ih =>
    simp only [List.foldl_cons, List.flatMap_cons, List.count_append]
    by_cases h : av.2.length < 2
    · simp only [h, if_true]
      rw [ih]
      simp
    · simp only [h, if_false]
      rw [ih, countAND_fold_steps]
      show countAND m p + (bucketEmits av.2).count p + _ = _
      omega

theorem normPair_fst (a b : Nat) : (normPair (a, b)).1 = a ∨ (normPair (a, b)).1 = b := by
  unfold normPair
  split <;> simp

theorem normPair_snd (a b : Nat) : (normPair (a, b)).2 = a ∨ (normPair (a, b)).2 = b := by
  unfold normPair
  split <;> simp

theorem fst_normPair_or (a b : Nat) : a = (normPair (a, b)).1 ∨ a = (normPair (a, b)).2 := by
  unfold normPair
  split <;> simp

theorem normPair_inj_snd {a b c : Nat} (hb : a ≠ b) (hc : a ≠ c)
    (h : normPair (a, b) = normPair (a, c)) : b = c := by
  unfold normPair at h
  simp only [Prod.ext_iff] at h
  split_ifs at h <;> simp at h <;> omega

theorem temporalKey_some {x y : Nat × Option CDate × String} {p : Nat × Nat}
    (h : temporalKey x y = some p) : p = normPair (x.1, y.1) ∧ x.1 ≠ y.1 := by
  unfold temporalKey at h
  by_cases h1 : x.1 = y.1
  · simp [h1] at h
  · refine ⟨?_, h1⟩
    simp only [h1, if_false] at h
    by_cases h2 : ¬ (statusInactive x.2.2 || statusInactive y.2.2)
    · simp [h2] at h
    · simp only [h2, if_false] at h
      cases hx : x.2.1 with
      | none => rw [hx] at h; simp at h
      | some da =>
        cases hy : y.2.1 with
        | none => rw [hx, hy] at h; simp at h
        | some db =>
          rw [hx, hy] at h
          by_cases h3 : (dateDays da - dateDays db).natAbs ≤ 180
          · simp only [h3, if_true] at h
            exact (Option.some.inj h).symm
          · simp [h3] at h

theorem mem_combinations2 {α : Type} :
    ∀ (l : List α) (x y : α), (x, y) ∈ combinations2 l → x ∈ l ∧ y ∈ l := by
  intro l
  induction l with
  | nil => intro x y h; simp [combinations2] at h
  | cons a as ih =>
    intro x y h
    simp only [combinations2, List.mem_append, List.mem_map] at h
    rcases h with ⟨z, hz, he⟩ | h
    · cases he
      exact ⟨by simp, by simp [hz]⟩
    · obtain ⟨h1, h2⟩ := ih x y h
      exact ⟨by simp [h1], by simp [h2]⟩

theorem countP_filterMap_some {α β : Type} [DecidableEq β] (f : α → Option β)
    (l : List α) (b : β) :
    (l.filterMap f).countP (fun x => x = b) = l.countP (fun a => f a = some b) := by
  induction l with
  | nil => simp
  | cons x xs ih =>
    simp only [List.filterMap_cons, List.countP_cons]
    cases hx : f x with
    | none => simp [hx, ih]
    | some y =>
      by_cases hy : y = b
      · subst hy
        simp [hx, List.countP_cons, ih]
      · simp [hx, List.countP_cons, hy, ih,
          fun he : some y = some b => hy (Option.some.inj he)]

/-- Within one bucket whose entries carry distinct DOTs, the inner double
loop can emit a given pair at most once. -/
theorem countP_combinations2_le (l : List (Nat × Option CDate × String)) (p : Nat × Nat)
    (h : (l.map (fun e => e.1)).Nodup) :
    (combinations2 l).countP (fun xy => temporalKey xy.1 xy.2 = some p) ≤ 1 := by
  induction l with
  | nil => simp [combinations2]
  | cons x xs ih =>
    have hx : x.1 ∉ xs.map (fun e => e.1) := (List.nodup_cons.mp (by simpa using h)).1
    have hxs : (xs.map (fun e => e.1)).Nodup := (List.nodup_cons.mp (by simpa using h)).2
    simp only [combinations2, List.countP_append, List.countP_map]
    by_cases hc1 : 0 < xs.countP
        ((fun xy => decide (temporalKey xy.1 xy.2 = some p)) ∘ fun y => (x, y))
    · obtain ⟨y0, hy0mem, hy0⟩ := List.countP_pos.mp hc1
      simp only [Function.comp] at hy0
      have hkey := temporalKey_some (of_decide_eq_true hy0)
      obtain ⟨hp0, hne0⟩ := hkey
      have hhead : xs.countP
          ((fun xy => decide (temporalKey xy.1 xy.2 = some p)) ∘ fun y => (x, y)) ≤ 1 := by
        calc xs.countP ((fun xy => decide (temporalKey xy.1 xy.2 = some p)) ∘ fun y => (x, y))
            ≤ xs.countP (fun y => y.1 = y0.1) := by
              refine List.countP_mono_left ?_
              intro y hy hky
              simp only [Function.comp] at hky
              obtain ⟨hpy, hney⟩ := temporalKey_some (of_decide_eq_true hky)
              have := normPair_inj_snd hney hne0 (hpy.symm.trans hp0)
              simpa using this
          _ = (xs.map (fun e => e.1)).count y0.1 := by
              rw [List.count_eq_countP, List.countP_map]
              refine List.countP_congr ?_
              intro y _
              simp [Function.comp]
          _ ≤ 1 := List.nodup_iff_count_le_one.mp hxs y0.1
      have htail : (combinations2 xs).countP (fun xy => temporalKey xy.1 xy.2 = some p) = 0 := by
        by_contra hpos
        obtain ⟨xy, hxymem, hxy⟩ := List.countP_pos.mp (Nat.pos_of_ne_zero hpos)
        obtain ⟨hpxy, hnexy⟩ := temporalKey_some (of_decide_eq_true hxy)
        obtain ⟨hx1, hx2⟩ := mem_combinations2 xs xy.1 xy.2 (by simpa using hxymem)
        have hxcomp : x.1 = p.1 ∨ x.1 = p.2 := by
          rw [hp0]
          exact fst_normPair_or x.1 y0.1
        have hc1' : p.1 = xy.1.1 ∨ p.1 = xy.2.1 := by
          rw [hpxy]
          exact normPair_fst xy.1.1 xy.2.1
        have hc2' : p.2 = xy.1.1 ∨ p.2 = xy.2.1 := by
          rw [hpxy]
          exact normPair_snd xy.1.1 xy.2.1
        apply hx
        rcases hxcomp with hxc | hxc
        · rcases hc1' with hcc | hcc
          · exact List.mem_map.mpr ⟨xy.1, hx1, by omega⟩
          · exact List.mem_map.mpr ⟨xy.2, hx2, by omega⟩
        · rcases hc2' with hcc | hcc
          · exact List.mem_map.mpr ⟨xy.1, hx1, by omega⟩
          · exact List.mem_map.mpr ⟨xy.2, hx2, by omega⟩
      omega
    · have hc1' : xs.countP
          ((fun xy => decide (temporalKey xy.1 xy.2 = some p)) ∘ fun y => (x, y)) = 0 := by
        omega
      have := ih hxs
      omega

/-- All DOTs appearing in address-bucket entries, with multiplicity. -/
def flatDots (B : List (String × List (Nat × Option CDate × String))) : List Nat :=
  B.flatMap (fun av => av.2.map (fun e => e.1))

theorem flatDots_aupd_count (B : List (String × List (Nat × Option CDate × String)))
    (k : String) (e : Nat × Option CDate × String) (d : Nat) :
    (flatDots (aupd B k [] (fun l => l ++ [e]))).count d
      = (flatDots B).count d + (if e.1 = d then 1 else 0) := by
  induction B with
  | nil =>
    by_cases he : e.1 = d <;> simp [aupd, flatDots, List.count_cons, he]
  | cons av rest ih =>
    obtain ⟨a, l⟩ := av
    by_cases ha : a = k
    · subst ha
      by_cases he : e.1 = d <;>
        simp [aupd, flatDots, List.flatMap_cons, List.map_append, List.count_append,
          List.count_cons, he] <;> omega
    · simp only [aupd, ha, if_false, flatDots, List.flatMap_cons, List.count_append]
      have ih' := ih
      simp only [flatDots] at ih'
      omega

theorem addrEntries_dots_count (carriers : List Carrier) (d : Nat) :
    (flatDots (addrEntries carriers)).count d ≤ (carriers.map Carrier.dot).count d := by
  suffices h : ∀ (cs : List Carrier) (ac : List (String × List (Nat × Option CDate × String))),
      (flatDots (cs.foldl (fun ac c =>
          if normalize_address c.phy_street c.phy_city c.phy_state ≠ "" then
            aupd ac (normalize_address c.phy_street c.phy_city c.phy_state) []
              (fun l => l ++ [(c.dot, c.add_date, c.status_code)])
          else ac) ac)).count d
        ≤ (flatDots ac).count d + (cs.map Carrier.dot).count d by
    have hh := h carriers []
    simpa [addrEntries, flatDots] using hh
  intro cs
  induction cs with
  | nil => intro ac; simp
  | cons c rest ih =>
    intro ac
    simp only [List.foldl_cons, List.map_cons]
    by_cases haddr : normalize_address c.phy_street c.phy_city c.phy_state ≠ ""
    · rw [if_pos haddr]
      refine le_trans (ih _) ?_
      rw [flatDots_aupd_count]
      by_cases he : c.dot = d <;>
        simp [List.count_cons, he] <;> all_goals omega
    · rw [if_neg haddr]
      refine le_trans (ih _) ?_
      by_cases he : c.dot = d <;>
        simp [List.count_cons, he] <;> all_goals omega

theorem bucket_count_le_flat :
    ∀ (B : List (String × List (Nat × Option CDate × String)))
      (av : String × List (Nat × Option CDate × String)), av ∈ B →
      ∀ d, (av.2.map (fun e => e.1)).count d ≤ (flatDots B).count d := by
  intro B
  induction B with
  | nil => intro av h; simp at h
  | cons bv rest ih =>
    intro av h d
    rcases List.mem_cons.mp h with he | hm
    · subst he
      simp only [flatDots, List.flatMap_cons, List.count_append]
      omega
    · have hr := ih av hm d
      simp only [flatDots, List.flatMap_cons, List.count_append] at hr ⊢
      omega

theorem mem_bucketEmits_dots {entries : List (Nat × Option CDate × String)}
    {p : Nat × Nat} (h : p ∈ bucketEmits entries) :
    p.1 ∈ entries.map (fun e => e.1) := by
  obtain ⟨xy, hxm, hk⟩ := List.mem_filterMap.mp h
  obtain ⟨hp, hne⟩ := temporalKey_some hk
  obtain ⟨h1, h2⟩ := mem_combinations2 entries xy.1 xy.2 (by simpa using hxm)
  rw [hp]
  rcases normPair_fst xy.1.1 xy.2.1 with hc | hc
  · rw [hc]; exact List.mem_map.mpr ⟨xy.1, h1, rfl⟩
  · rw [hc]; exact List.mem_map.mpr ⟨xy.2, h2, rfl⟩

theorem count_flat_emits (B : List (String × List (Nat × Option CDate × String)))
    (p : Nat × Nat) (h : ∀ d, (flatDots B).count d ≤ 1) :
    (B.flatMap (fun av => if av.2.length < 2 then [] else bucketEmits av.2)).count p ≤ 1 := by
  induction B with
  | nil => simp
  | cons av rest ih =>
    have hrest : ∀ d, (flatDots rest).count d ≤ 1 := by
      intro d
      have hd := h d
      simp only [flatDots, List.flatMap_cons, List.count_append] at hd ⊢
      omega
    have hnodup : (av.2.map (fun e => e.1)).Nodup := by
      refine List.nodup_iff_count_le_one.mpr ?_
      intro d
      exact le_trans (bucket_count_le_flat (av :: rest) av (by simp) d) (h d)
    have hblock : (if av.2.length < 2 then [] else bucketEmits av.2).count p ≤ 1 := by
      by_cases hl : av.2.length < 2
      · simp [hl]
      · simp only [hl, if_false]
        unfold bucketEmits
        rw [List.count_eq_countP]
        rw [show ((combinations2 av.2).filterMap fun xy => temporalKey xy.1 xy.2).countP
              (fun x => x == p)
            = ((combinations2 av.2).filterMap fun xy => temporalKey xy.1 xy.2).countP
              (fun x => x = p) from List.countP_congr (fun x _ => by simp)]
        rw [countP_filterMap_some]
        exact countP_combinations2_le av.2 p hnodup
    simp only [List.flatMap_cons, List.count_append]
    by_cases hb : (if av.2.length < 2 then [] else bucketEmits av.2).count p = 0
    · rw [hb]
      simpa using ih hrest
    · have hpm : p ∈ (if av.2.length < 2 then [] else bucketEmits av.2) :=
        List.count_pos_iff.mp (Nat.pos_of_ne_zero hb)
      have hpm' : p ∈ bucketEmits av.2 := by
        by_cases hl : av.2.length < 2
        · rw [if_pos hl] at hpm; simp at hpm
        · rwa [if_neg hl] at hpm
      have h1 := mem_bucketEmits_dots hpm'
      have hrest0 : (rest.flatMap
          (fun av => if av.2.length < 2 then [] else bucketEmits av.2)).count p = 0 := by
        by_contra hpos
        have hpr := List.count_pos_iff.mp (Nat.pos_of_ne_zero hpos)
        obtain ⟨av', hav', hp'⟩ := List.mem_flatMap.mp hpr
        have hp'' : p ∈ bucketEmits av'.2 := by
          by_cases hl : av'.2.length < 2
          · rw [if_pos hl] at hp'; simp at hp'
          · rwa [if_neg hl] at hp'
        have h2 : p.1 ∈ flatDots rest :=
          List.mem_flatMap.mpr ⟨av', hav', mem_bucketEmits_dots hp''⟩
        have c1 : 0 < (av.2.map (fun e => e.1)).count p.1 := List.count_pos_iff.mpr h1
        have c2 : 0 < (flatDots rest).count p.1 := List.count_pos_iff.mpr h2
        have htot := h p.1
        simp only [flatDots, List.flatMap_cons, List.count_append] at htot
        simp only [flatDots] at c2
        omega
      omega

/-- C9: each unordered carrier pair receives the `address_new_dot`
contribution at most once per run — each carrier has one normalized address
so a pair of carriers shares at most one address bucket, and within a
bucket each unordered pair of entries is visited exactly once.  Stated for
carrier lists with distinct DOT keys, as loaded from the dict keyed by DOT. -/
theorem C9_temporal_once (index : Index) (carriers : List Carrier)
    (hnd : (carriers.map Carrier.dot).Nodup) (p : Nat × Nat) :
    countAND (detect_temporal_signals carriers (score_pairwise_links index)) p ≤ 1 := by
  rw [countAND_detect_temporal, countAND_score_pairwise]
  have hflat : ∀ d, (flatDots (addrEntries carriers)).count d ≤ 1 := fun d =>
    le_trans (addrEntries_dots_count carriers d) (List.nodup_iff_count_le_one.mp hnd d)
  simpa [emittedPairs] using count_flat_emits (addrEntries carriers) p hflat

/-- Witness for C9_temporal_once at the two-carrier input. -/
theorem C9_temporal_once_witness :
    ([carrierA, carrierB].map Carrier.dot).Nodup ∧
    countAND (detect_temporal_signals [carrierA, carrierB]
      (score_pairwise_links (build_inverted_index [carrierA, carrierB]))) (1, 2) ≤ 1 :=
  ⟨by decide, C9_temporal_once (build_inverted_index [carrierA, carrierB])
    [carrierA, carrierB] (by decide) (1, 2)⟩

/-! ## Claim C10: a self-referencing prior-revoke link

Facts about `Nat.repr` needed for the synthetic bucket key
`f"{min_dot}_{max_dot}"`: decimal representations consist of digits and are
injective, hence the key determines the DOT pair. -/

theorem digitChar_isDigit {m : Nat} (h : m < 10) : (Nat.digitChar m).isDigit = true := by
  interval_cases m <;> decide

theorem digitChar_val {m : Nat} (h : m < 10) : (Nat.digitChar m).toNat - 48 = m := by
  interval_cases m <;> decide

theorem toDigitsCore_append (b : Nat) : ∀ (f n : Nat) (ds : List Char),
    Nat.toDigitsCore b f n ds = Nat.toDigitsCore b f n [] ++ ds := by
  intro f
  induction f with
  | zero => intro n ds; simp [Nat.toDigitsCore]
  | succ f ih =>
    intro n ds
    simp only [Nat.toDigitsCore]
    by_cases h : n / b = 0
    · simp [h]
    · simp only [h, if_false]
      rw [ih (n / b) (Nat.digitChar (n % b) :: ds), ih (n / b) [Nat.digitChar (n % b)]]
      simp

theorem toDigitsCore_digits : ∀ (f n : Nat) (ds : List Char),
    (∀ c ∈ ds, c.isDigit = true) →
    ∀ c ∈ Nat.toDigitsCore 10 f n ds, c.isDigit = true := by
  intro f
  induction f with
  | zero => intro n ds hds c hc; exact hds c hc
  | succ f ih =>
    intro n ds hds c hc
    simp only [Nat.toDigitsCore] at hc
    by_cases h0 : n / 10 = 0
    · rw [if_pos h0] at hc
      rcases List.mem_cons.mp hc with hc | hc
      · rw [hc]
        exact digitChar_isDigit (Nat.mod_lt _ (by norm_num))
      · exact hds c hc
    · rw [if_neg h0] at hc
      refine ih (n / 10) (Nat.digitChar (n % 10) :: ds) ?_ c hc
      intro c' hc'
      rcases List.mem_cons.mp hc' with hc' | hc'
      · rw [hc']
        exact digitChar_isDigit (Nat.mod_lt _ (by norm_num))
      · exact hds c' hc'

theorem repr_digits (n : Nat) : ∀ c ∈ (Nat.repr n).data, c.isDigit = true := by
  intro c hc
  exact toDigitsCore_digits (n + 1) n [] (by simp) c hc

theorem repr_no_underscore (n : Nat) : ¬ '_' ∈ (Nat.repr n).data := by
  intro hmem
  exact absurd (repr_digits n '_' hmem) (by decide)

/-- Decimal decoder, a left inverse of `Nat.repr`. -/
def decodeDigits (l : List Char) : Nat :=
  l.foldl (fun acc c => acc * 10 + (c.toNat - 48)) 0

theorem decodeDigits_append (l : List Char) (c : Char) :
    decodeDigits (l ++ [c]) = decodeDigits l * 10 + (c.toNat - 48) := by
  simp [decodeDigits, List.foldl_append]

theorem decode_toDigitsCore : ∀ (f n : Nat), n < 10 ^ f →
    decodeDigits (Nat.toDigitsCore 10 f n []) = n := by
  intro f
  induction f with
  | zero =>
    intro n h
    simp only [pow_zero] at h
    interval_cases n
    simp [Nat.toDigitsCore, decodeDigits]
  | succ f ih =>
    intro n h
    simp only [Nat.toDigitsCore]
    by_cases h0 : n / 10 = 0
    · rw [if_pos h0]
      have hn : n < 10 := by omega
      simp only [decodeDigits, List.foldl_cons, List.foldl_nil]
      rw [Nat.zero_mul, Nat.zero_add, digitChar_val (Nat.mod_lt _ (by norm_num)),
        Nat.mod_eq_of_lt hn]
    · rw [if_neg h0]
      rw [toDigitsCore_append 10 f (n / 10) [Nat.digitChar (n % 10)]]
      rw [decodeDigits_append]
      have hdiv : n / 10 < 10 ^ f := by
        rw [Nat.div_lt_iff_lt_mul (by norm_num : 0 < 10)]
        calc n < 10 ^ (f + 1) := h
          _ = 10 ^ f * 10 := by rw [pow_succ]
      rw [ih (n / 10) hdiv, digitChar_val (Nat.mod_lt _ (by norm_num))]
      omega

theorem decode_repr (n : Nat) : decodeDigits (Nat.repr n).data = n := by
  have h : (Nat.repr n).data = Nat.toDigitsCore 10 (n + 1) n [] := rfl
  rw [h]
  refine decode_toDigitsCore (n + 1) n ?_
  calc n < 10 ^ n := Nat.lt_pow_self (by norm_num) n
    _ ≤ 10 ^ (n + 1) := Nat.pow_le_pow_right (by norm_num) (by omega)

theorem repr_injective {m n : Nat} (h : (Nat.repr m).data = (Nat.repr n).data) : m = n := by
  have := congrArg decodeDigits h
  rwa [decode_repr, decode_repr] at this

theorem append_underscore_inj : ∀ {l1 : List Char} {r1 : List Char} {l2 r2 : List Char},
    ¬ '_' ∈ l1 → ¬ '_' ∈ l2 →
    l1 ++ '_' :: r1 = l2 ++ '_' :: r2 → l1 = l2 ∧ r1 = r2 := by
  intro l1
  induction l1 with
  | nil =>
    intro r1 l2 r2 h1 h2 h
    cases l2 with
    | nil => simpa using h
    | cons b bs =>
      exfalso
      simp only [List.nil_append, List.cons_append] at h
      have hb : '_' = b := by injection h
      exact h2 (List.mem_cons.mpr (Or.inl hb))
  | cons a as ih =>
    intro r1 l2 r2 h1 h2 h
    cases l2 with
    | nil =>
      exfalso
      simp only [List.cons_append, List.nil_append] at h
      have hb : a = '_' := by injection h
      exact h1 (List.mem_cons.mpr (Or.inl hb.symm))
    | cons b bs =>
      simp only [List.cons_append] at h
      injection h with hab htail
      have h1' : ¬ '_' ∈ as := fun hm => h1 (List.mem_cons.mpr (Or.inr hm))
      have h2' : ¬ '_' ∈ bs := fun hm => h2 (List.mem_cons.mpr (Or.inr hm))
      obtain ⟨he1, he2⟩ := ih h1' h2' htail
      exact ⟨by rw [hab, he1], he2⟩

/-- The synthetic bucket key is injective: `f"{x}_{y}"` built from a
self-pair can only come from that same pair. -/
theorem pairKey_self_inj {a b d : Nat} (h : pairKey a b = pairKey d d) :
    min a b = d ∧ max a b = d := by
  unfold pairKey at h
  have hd := congrArg String.data h
  rw [String.data_append, String.data_append, String.data_append, String.data_append] at hd
  have hd' : (Nat.repr (min a b)).data ++ '_' :: (Nat.repr (max a b)).data
      = (Nat.repr d).data ++ '_' :: (Nat.repr d).data := by
    simpa using hd
  obtain ⟨e1, e2⟩ := append_underscore_inj (repr_no_underscore _) (repr_no_underscore _) hd'
  exact ⟨repr_injective e1, repr_injective e2⟩

/-- The prior-revoke bucket stored under a given key. -/
def prBucket (idx : Index) (key : String) : List Nat :=
  (alookup ((alookup idx "prior_revoke").getD []) key).getD []

/-- Python `set.add`: the effect of one `indexAdd` on its own bucket. -/
def addD (d : Nat) (l : List Nat) : List Nat := if d ∈ l then l else l ++ [d]

theorem prBucket_indexAdd_ne_feature (idx : Index) (f v : String) (dot : Nat)
    (key : String) (hf : f ≠ "prior_revoke") :
    prBucket (indexAdd idx f v dot) key = prBucket idx key := by
  unfold prBucket indexAdd
  rw [alookup_aupd_ne _ _ _ _ _ (fun he => hf he.symm)]

theorem prBucket_indexAdd_ne_key (idx : Index) (v : String) (dot : Nat) (key : String)
    (hv : v ≠ key) :
    prBucket (indexAdd idx "prior_revoke" v dot) key = prBucket idx key := by
  unfold prBucket indexAdd
  rw [alookup_aupd_eq]
  simp only [Option.getD_some]
  rw [alookup_aupd_ne _ _ _ _ _ (fun he => hv he.symm)]

theorem prBucket_indexAdd_eq (idx : Index) (key : String) (dot : Nat) :
    prBucket (indexAdd idx "prior_revoke" key dot) key = addD dot (prBucket idx key) := by
  unfold prBucket indexAdd addD
  rw [alookup_aupd_eq]
  simp only [Option.getD_some]
  rw [alookup_aupd_eq]
  simp

theorem prBucket_condAdd (idx : Index) (cond : Prop) [Decidable cond] (f v : String)
    (dot : Nat) (key : String) (hf : f ≠ "prior_revoke") :
    prBucket (if cond then indexAdd idx f v dot else idx) key = prBucket idx key := by
  by_cases h : cond
  · rw [if_pos h]
    exact prBucket_indexAdd_ne_feature idx f v dot key hf
  · rw [if_neg h]

theorem prBucket_vinFold (vins : List String) (dot : Nat) (key : String) :
    ∀ idx, prBucket (vins.foldl
        (fun index vin => if 5 ≤ vin.length then indexAdd index "vin" vin dot else index)
        idx) key
      = prBucket idx key := by
  induction vins with
  | nil => intro idx; rfl
  | cons v vs ih =>
    intro idx
    simp only [List.foldl_cons]
    rw [ih]
    exact prBucket_condAdd idx _ "vin" v dot key (by decide)

theorem prBucket_base (idx : Index) (e : Carrier) (key : String) :
    prBucket (indexAddBase idx e) key = prBucket idx key := by
  unfold indexAddBase
  rw [prBucket_vinFold]
  rw [prBucket_condAdd _ _ _ _ _ _ (by decide : ("officer" : String) ≠ "prior_revoke")]
  rw [prBucket_condAdd _ _ _ _ _ _ (by decide : ("officer" : String) ≠ "prior_revoke")]
  rw [prBucket_condAdd _ _ _ _ _ _ (by decide : ("address" : String) ≠ "prior_revoke")]
  rw [prBucket_condAdd _ _ _ _ _ _ (by decide : ("cell_phone" : String) ≠ "prior_revoke")]
  rw [prBucket_condAdd _ _ _ _ _ _ (by decide : ("fax" : String) ≠ "prior_revoke")]
  rw [prBucket_condAdd _ _ _ _ _ _ (by decide : ("phone" : String) ≠ "prior_revoke")]

/-- Effect of one carrier on the diagonal bucket `pairKey d d`: either
untouched, or (for a carrier whose normalized pair is exactly `(d, d)`)
`d` is added twice. -/
theorem prBucket_step (carriers : List Carrier) (d : Nat) (e : Carrier) (idx : Index) :
    prBucket (indexAddCarrier carriers idx e) (pairKey d d) = prBucket idx (pairKey d d) ∨
    prBucket (indexAddCarrier carriers idx e) (pairKey d d)
      = addD d (addD d (prBucket idx (pairKey d d))) := by
  unfold indexAddCarrier
  by_cases h1 : e.prior_revoke_flag = "Y" ∧ e.prior_revoke_dot.getD 0 ≠ 0
  · rw [if_pos h1]
    by_cases h2 : e.prior_revoke_dot.getD 0 ∈ carriers.map Carrier.dot
    · rw [if_pos h2]
      by_cases h3 : pairKey e.dot (e.prior_revoke_dot.getD 0) = pairKey d d
      · right
        obtain ⟨hmin, hmax⟩ := pairKey_self_inj h3
        have hed : e.dot = d := by omega
        have ht : e.prior_revoke_dot.getD 0 = d := by omega
        rw [hed, ht] at h3 ⊢
        rw [prBucket_indexAdd_eq, prBucket_indexAdd_eq, prBucket_base]
      · left
        rw [prBucket_indexAdd_ne_key _ _ _ _ h3, prBucket_indexAdd_ne_key _ _ _ _ h3,
          prBucket_base]
    · rw [if_neg h2]
      left
      exact prBucket_base idx e _
  · rw [if_neg h1]
    left
    exact prBucket_base idx e _

/-- For the self-referencing carrier itself, the bucket definitely
receives `d` (twice). -/
theorem prBucket_step_self (carriers : List Carrier) (d : Nat) (e : Carrier) (idx : Index)
    (hflag : e.prior_revoke_flag = "Y") (hself : e.prior_revoke_dot = some e.dot)
    (hdot : e.dot = d) (hd0 : d ≠ 0) (hmem : d ∈ carriers.map Carrier.dot) :
    prBucket (indexAddCarrier carriers idx e) (pairKey d d)
      = addD d (addD d (prBucket idx (pairKey d d))) := by
  unfold indexAddCarrier
  have ht : e.prior_revoke_dot.getD 0 = d := by rw [hself]; simpa using hdot
  have h1 : e.prior_revoke_flag = "Y" ∧ e.prior_revoke_dot.getD 0 ≠ 0 :=
    ⟨hflag, by rw [ht]; exact hd0⟩
  rw [if_pos h1, ht, if_pos hmem, hdot]
  rw [prBucket_indexAdd_eq, prBucket_indexAdd_eq, prBucket_base]

theorem addD_nil (d : Nat) : addD d [] = [d] := by simp [addD]

theorem addD_singleton (d : Nat) : addD d [d] = [d] := by simp [addD]

/-- The synthetic diagonal bucket for a self-referencing carrier holds
exactly that carrier. -/
theorem prBucket_build (carriers : List Carrier) (d : Nat) (c : Carrier)
    (hc : c ∈ carriers) (hflag : c.prior_revoke_flag = "Y")
    (hself : c.prior_revoke_dot = some c.dot) (hdot : c.dot = d) (hd0 : d ≠ 0) :
    prBucket (build_inverted_index carriers) (pairKey d d) = [d] := by
  have hdm : d ∈ carriers.map Carrier.dot := List.mem_map.mpr ⟨c, hc, hdot⟩
  obtain ⟨pre, post, hsplit⟩ := List.mem_iff_append.mp hc
  have hgoal : build_inverted_index carriers
      = (pre ++ c :: post).foldl (indexAddCarrier carriers) [] := by
    unfold build_inverted_index; rw [← hsplit]
  rw [hgoal, List.foldl_append, List.foldl_cons]
  have hP : prBucket (pre.foldl (indexAddCarrier carriers) []) (pairKey d d) = []
      ∨ prBucket (pre.foldl (indexAddCarrier carriers) []) (pairKey d d) = [d] := by
    refine foldl_preserve
      (fun idx => prBucket idx (pairKey d d) = [] ∨ prBucket idx (pairKey d d) = [d])
      _ _ _ (Or.inl rfl) ?_
    intro b a _ hb
    rcases prBucket_step carriers d a b with he | he
    · rw [he]; exact hb
    · rw [he]
      rcases hb with hb | hb <;> rw [hb]
      · right; rw [addD_nil, addD_singleton]
      · right; rw [addD_singleton, addD_singleton]
  have hC : prBucket (indexAddCarrier carriers (pre.foldl (indexAddCarrier carriers) []) c)
      (pairKey d d) = [d] := by
    rw [prBucket_step_self carriers d c _ hflag hself hdot hd0 hdm]
    rcases hP with hb | hb <;> rw [hb]
    · rw [addD_nil, addD_singleton]
    · rw [addD_singleton, addD_singleton]
  refine foldl_preserve (fun idx => prBucket idx (pairKey d d) = [d]) _ _ _ hC ?_
  intro b a _ hb
  rcases prBucket_step carriers d a b with he | he
  · rw [he]; exact hb
  · rw [he, hb, addD_singleton, addD_singleton]

/-- `aupd` either keeps a binding or rewrites/creates the binding of the
updated key from its looked-up (or default) value. -/
theorem mem_aupd {α β : Type} [DecidableEq α] (k : α) (d : β) (f : β → β) :
    ∀ (m : List (α × β)) (p : α × β),
      p ∈ aupd m k d f → p ∈ m ∨ p = (k, f ((alookup m k).getD d)) := by
  intro m
  induction m with
  | nil =>
    intro p hp
    simp only [aupd, List.mem_singleton] at hp
    exact Or.inr (by simpa [alookup] using hp)
  | cons q rest ih =>
    intro p hp
    obtain ⟨a, b⟩ := q
    simp only [aupd] at hp
    by_cases ha : a = k
    · rw [if_pos ha] at hp
      rcases List.mem_cons.mp hp with he | hm
      · exact Or.inr (by rw [he, ha]; simp [alookup, ha])
      · exact Or.inl (List.mem_cons_of_mem _ hm)
    · rw [if_neg ha] at hp
      rcases List.mem_cons.mp hp with he | hm
      · exact Or.inl (by rw [he]; exact List.mem_cons_self _ _)
      · rcases ih p hm with h | h
        · exact Or.inl (List.mem_cons_of_mem _ h)
        · exact Or.inr (by rw [h]; simp [alookup, ha])

/-- A successful lookup names a binding of the list. -/
theorem alookup_mem {α β : Type} [DecidableEq α] :
    ∀ (m : List (α × β)) (k : α) (v : β), alookup m k = some v → (k, v) ∈ m := by
  intro m
  induction m with
  | nil => intro k v h; simp [alookup] at h
  | cons q rest ih =>
    intro k v h
    obtain ⟨a, b⟩ := q
    simp only [alookup] at h
    by_cases ha : a = k
    · rw [if_pos ha] at h
      cases h
      rw [← ha]
      exact List.mem_cons_self _ _
    · rw [if_neg ha] at h
      exact List.mem_cons_of_mem _ (ih k v h)

/-- A key bound by no entry looks up to `none`. -/
theorem alookup_eq_none {α β : Type} [DecidableEq α] :
    ∀ (m : List (α × β)) (k : α), (∀ p ∈ m, p.1 ≠ k) → alookup m k = none := by
  intro m
  induction m with
  | nil => intro k _; rfl
  | cons q rest ih =>
    intro k h
    obtain ⟨a, b⟩ := q
    simp only [alookup]
    rw [if_neg (h (a, b) (List.mem_cons_self _ _))]
    exact ih k (fun p hp => h p (List.mem_cons_of_mem _ hp))

/-- Python `set.add` keeps the member list duplicate-free. -/
theorem nodup_setAdd (l : List Nat) (dot : Nat) (h : l.Nodup) :
    (if dot ∈ l then l else l ++ [dot]).Nodup := by
  by_cases hd : dot ∈ l
  · rw [if_pos hd]; exact h
  · rw [if_neg hd]
    simp only [List.nodup_append, List.nodup_cons, List.not_mem_nil, not_false_iff,
      List.nodup_nil, and_true, true_and]
    refine ⟨h, ?_⟩
    intro a ha hb
    simp only [List.mem_singleton] at hb
    exact hd (hb ▸ ha)

/-- Every bucket of the inverted index is duplicate-free (each bucket is a
Python `set`). -/
def nodupIndex (idx : Index) : Prop :=
  ∀ fb ∈ idx, ∀ vb ∈ fb.2, vb.2.Nodup

theorem nodupIndex_indexAdd (idx : Index) (f v : String) (dot : Nat)
    (h : nodupIndex idx) : nodupIndex (indexAdd idx f v dot) := by
  intro fb hfb vb hvb
  unfold indexAdd at hfb
  rcases mem_aupd _ _ _ _ _ hfb with hin | he
  · exact h fb hin vb hvb
  · rw [he] at hvb
    rcases mem_aupd _ _ _ _ _ hvb with hin2 | he2
    · cases halk : alookup idx f with
      | none => rw [halk] at hin2; simp at hin2
      | some bs =>
        rw [halk] at hin2
        exact h (f, bs) (alookup_mem idx f bs halk) vb hin2
    · rw [he2]
      have hold : ((alookup ((alookup idx f).getD []) v).getD []).Nodup := by
        cases halk : alookup idx f with
        | none => simp [alookup]
        | some bs =>
          simp only [Option.getD_some]
          cases halk2 : alookup bs v with
          | none => simp
          | some b =>
            simp only [Option.getD_some]
            simpa using h (f, bs) (alookup_mem idx f bs halk) (v, b)
              (alookup_mem bs v b halk2)
      exact nodup_setAdd _ _ hold

theorem nodupIndex_condAdd (idx : Index) (cond : Prop) [Decidable cond]
    (f v : String) (dot : Nat) (h : nodupIndex idx) :
    nodupIndex (if cond then indexAdd idx f v dot else idx) := by
  split
  · exact nodupIndex_indexAdd idx f v dot h
  · exact h

theorem nodupIndex_indexAddBase (idx : Index) (c : Carrier) (h : nodupIndex idx) :
    nodupIndex (indexAddBase idx c) := by
  unfold indexAddBase
  refine foldl_preserve nodupIndex _ _ _ ?_ ?_
  · exact nodupIndex_condAdd _ _ _ _ _ (nodupIndex_condAdd _ _ _ _ _
      (nodupIndex_condAdd _ _ _ _ _ (nodupIndex_condAdd _ _ _ _ _
        (nodupIndex_condAdd _ _ _ _ _ (nodupIndex_condAdd _ _ _ _ _ h)))))
  · intro b a _ hb
    exact nodupIndex_condAdd _ _ _ _ _ hb

theorem nodupIndex_indexAddCarrier (carriers : List Carrier) (idx : Index)
    (c : Carrier) (h : nodupIndex idx) :
    nodupIndex (indexAddCarrier carriers idx c) := by
  unfold indexAddCarrier
  have hb : nodupIndex (indexAddBase idx c) := nodupIndex_indexAddBase idx c h
  split
  · split
    · exact nodupIndex_indexAdd _ _ _ _ (nodupIndex_indexAdd _ _ _ _ hb)
    · exact hb
  · exact hb

theorem nodupIndex_build (carriers : List Carrier) :
    nodupIndex (build_inverted_index carriers) := by
  unfold build_inverted_index
  refine foldl_preserve nodupIndex _ _ _ ?_ ?_
  · intro fb hfb; simp at hfb
  · intro idx c _ h
    exact nodupIndex_indexAddCarrier carriers idx c h

/-- `itertools.combinations(l, 2)` over a duplicate-free list only emits
pairs of distinct elements. -/
theorem combinations2_ne {α : Type} :
    ∀ (l : List α), l.Nodup → ∀ ab ∈ combinations2 l, ab.1 ≠ ab.2 := by
  intro l
  induction l with
  | nil => intro _ ab hab; simp [combinations2] at hab
  | cons x xs ih =>
    intro hnd ab hab
    simp only [combinations2, List.mem_append, List.mem_map] at hab
    rcases hab with ⟨y, hy, he⟩ | hab
    · cases he
      intro he'
      have hxy : x = y := he'
      exact (List.nodup_cons.mp hnd).1 (by rw [hxy]; exact hy)
    · exact ih (List.nodup_cons.mp hnd).2 ab hab

/-- Every pair key recorded by the scorer has its smaller DOT first,
strictly. -/
def keysLt (m : PairMaps) : Prop :=
  (∀ pq ∈ m.scores, pq.1.1 < pq.1.2) ∧ (∀ pq ∈ m.reasons, pq.1.1 < pq.1.2)

theorem normPair_lt (a b : Nat) (h : a ≠ b) :
    (normPair (a, b)).1 < (normPair (a, b)).2 := by
  unfold normPair
  by_cases hl : a < b
  · rw [if_pos hl]; exact hl
  · rw [if_neg hl]
    simp only []
    omega

theorem keysLt_addPair (m : PairMaps) (pair : Nat × Nat) (f v : String)
    (freq : Nat) (c : Q) (hp : pair.1 < pair.2) (h : keysLt m) :
    keysLt (addPair m pair f v freq c) := by
  constructor
  · intro pq hpq
    rcases mem_aupd _ _ _ _ _ hpq with hin | he
    · exact h.1 pq hin
    · rw [he]; exact hp
  · intro pq hpq
    rcases mem_aupd _ _ _ _ _ hpq with hin | he
    · exact h.2 pq hin
    · rw [he]; exact hp

theorem keysLt_scoreBucket (feature : String) (c : Q) (freq : Nat)
    (value : String) (members : List Nat) (hm : members.Nodup)
    (m : PairMaps) (h : keysLt m) :
    keysLt (scoreBucket feature c freq value members m) := by
  unfold scoreBucket
  refine foldl_preserve keysLt _ _ _ h ?_
  intro b ab hab hb
  obtain ⟨x, y⟩ := ab
  have hs : (sortLE natLE members).Nodup := (sortLE_perm natLE members).nodup_iff.mpr hm
  have hne : x ≠ y := combinations2_ne _ hs (x, y) hab
  exact keysLt_addPair b (normPair (x, y)) _ _ _ _ (normPair_lt x y hne) hb

/-- Since every index bucket is a set, every pair the pairwise scorer
records has two distinct DOTs, stored smaller-first. -/
theorem keysLt_score_pairwise (idx : Index) (hidx : nodupIndex idx) :
    keysLt (score_pairwise_links idx) := by
  unfold score_pairwise_links
  refine foldl_preserve keysLt _ _ _ ⟨?_, ?_⟩ ?_
  · intro pq hpq; simp at hpq
  · intro pq hpq; simp at hpq
  · intro m feature _ hm
    by_cases h1 : feature = "address_new_dot" ∨ feature = "fleet_anomaly"
    · simpa [h1] using hm
    · simp only [h1, if_false]
      refine foldl_preserve keysLt _ _ _ hm ?_
      intro m' vm hvm hm'
      by_cases h2 : vm.2.length < 2
      · simpa [h2] using hm'
      · simp only [h2, if_false]
        by_cases h3 : ((FEATURE_WEIGHTS feature).mul (rarity_weight vm.2.length)).le Q.zero
        · simpa [h3] using hm'
        · simp only [h3, if_false]
          have hnd : vm.2.Nodup := by
            cases halk : alookup idx feature with
            | none => rw [halk] at hvm; simp at hvm
            | some bs =>
              rw [halk] at hvm
              simp only [Option.getD_some] at hvm
              exact hidx (feature, bs) (alookup_mem idx feature bs halk) vm hvm
          exact keysLt_scoreBucket feature _ vm.2.length vm.1 vm.2 hnd m' hm'

/-- C10: a carrier whose `prior_revoke_dot` is its own DOT (with flag "Y")
creates a synthetic `prior_revoke` bucket holding only itself; the pairwise
scorer therefore derives no pair from it — every recorded score and reason
key joins two strictly ordered distinct DOTs, and the diagonal key of that
carrier is absent from both maps, so no carrier is linked to itself via the
`prior_revoke` feature. -/
theorem C10_self_prior_revoke (carriers : List Carrier) (c : Carrier)
    (hc : c ∈ carriers) (hflag : c.prior_revoke_flag = "Y")
    (hself : c.prior_revoke_dot = some c.dot) (hd0 : c.dot ≠ 0) :
    prBucket (build_inverted_index carriers) (pairKey c.dot c.dot) = [c.dot]
    ∧ (∀ pq ∈ (score_pairwise_links (build_inverted_index carriers)).scores,
        pq.1.1 < pq.1.2)
    ∧ alookup (score_pairwise_links (build_inverted_index carriers)).scores
        (c.dot, c.dot) = none
    ∧ alookup (score_pairwise_links (build_inverted_index carriers)).reasons
        (c.dot, c.dot) = none := by
  have hb := prBucket_build carriers c.dot c hc hflag hself rfl hd0
  have hk := keysLt_score_pairwise (build_inverted_index carriers)
    (nodupIndex_build carriers)
  refine ⟨hb, hk.1, ?_, ?_⟩
  · refine alookup_eq_none _ _ ?_
    intro p hp he
    have h2 := hk.1 p hp
    rw [he] at h2
    simp at h2
  · refine alookup_eq_none _ _ ?_
    intro p hp he
    have h2 := hk.2 p hp
    rw [he] at h2
    simp at h2

/-- A carrier that names itself as its revoked predecessor. -/
def carrierSelf : Carrier :=
  { dot := 7, phone := "", fax := "", cell_phone := "",
    phy_street := "", phy_city := "", phy_state := "",
    officer1 := "", officer2 := "", status_code := "ACTIVE",
    prior_revoke_flag := "Y", prior_revoke_dot := some 7,
    add_date := none, power_units := none, vins := [],
    crash_count := 0, fatalities := 0 }

theorem C10_self_prior_revoke_witness :
    prBucket (build_inverted_index [carrierSelf]) (pairKey 7 7) = [7]
    ∧ alookup (score_pairwise_links (build_inverted_index [carrierSelf])).scores
        (7, 7) = none := by
  have h := C10_self_prior_revoke [carrierSelf] carrierSelf
    (List.mem_singleton.mpr rfl) rfl rfl (by decide)
  exact ⟨h.1, h.2.2.1⟩

/-! ## Claim C4: multi-member union-find groups are connected by qualifying
edges

Verification of the fueled union-find: parent chains, roots, the
union-by-rank / path-compression invariants, and adequacy of the fuel
`qualifying.length + 2` passed by `compute_clusters`. -/

/-- Iterated parent pointer. -/
def iterP (s : UF) : Nat → Nat → Nat
  | 0, x => x
  | n + 1, x => iterP s n (s.parent x)

/-- `r` is the root of `x`'s parent chain. -/
def isRootOf (s : UF) (x r : Nat) : Prop :=
  s.parent r = r ∧ ∃ n, iterP s n x = r

/-- Two nodes belong to the same union-find class. -/
def sameRoot (s : UF) (x y : Nat) : Prop :=
  ∃ r, isRootOf s x r ∧ isRootOf s y r

/-- Invariants of union-by-rank with path compression, relative to the edge
relation `e` and a bound `K` on the number of unions performed: ranks
strictly increase along parent links, ranks are bounded by `K`, and every
parent link joins connected nodes. -/
structure UFInv (e : Nat → Nat → Prop) (K : Nat) (s : UF) : Prop where
  rankup : ∀ x, s.parent x ≠ x → s.rank x < s.rank (s.parent x)
  rankle : ∀ x, s.rank x ≤ K
  conn : ∀ x, Relation.EqvGen e x (s.parent x)

theorem UFInv_mono {e : Nat → Nat → Prop} {K K' : Nat} {s : UF} (h : UFInv e K s)
    (hK : K ≤ K') : UFInv e K' s :=
  ⟨h.rankup, fun x => Nat.le_trans (h.rankle x) hK, h.conn⟩

theorem iterP_root (s : UF) (r : Nat) (h : s.parent r = r) : ∀ n, iterP s n r = r := by
  intro n
  induction n with
  | zero => rfl
  | succ n ih => show iterP s n (s.parent r) = r; rw [h]; exact ih

theorem iterP_add (s : UF) : ∀ (m n x : Nat), iterP s (m + n) x = iterP s n (iterP s m x) := by
  intro m
  induction m with
  | zero => intro n x; rw [Nat.zero_add]; rfl
  | succ m ih =>
    intro n x
    have h1 : m + 1 + n = (m + n) + 1 := by omega
    rw [h1]
    show iterP s (m + n) (s.parent x) = iterP s n (iterP s m (s.parent x))
    exact ih n (s.parent x)

theorem isRootOf_unique {s : UF} {x r r' : Nat} (h : isRootOf s x r)
    (h' : isRootOf s x r') : r = r' := by
  obtain ⟨hr, n, hn⟩ := h
  obtain ⟨hr', n', hn'⟩ := h'
  rcases Nat.le_total n n' with hle | hle
  · have h1 : n + (n' - n) = n' := by omega
    rw [← hn', ← h1, iterP_add, hn, iterP_root s r hr]
  · have h1 : n' + (n - n') = n := by omega
    rw [← hn, ← h1, iterP_add, hn', iterP_root s r' hr']

theorem rank_le_iterP (s : UF)
    (hup : ∀ x, s.parent x ≠ x → s.rank x < s.rank (s.parent x)) :
    ∀ (n x : Nat), s.rank x ≤ s.rank (iterP s n x) := by
  intro n
  induction n with
  | zero => intro x; exact Nat.le_refl _
  | succ n ih =>
    intro x
    show s.rank x ≤ s.rank (iterP s n (s.parent x))
    by_cases hp : s.parent x = x
    · rw [hp]; exact ih x
    · exact Nat.le_trans (Nat.le_of_lt (hup x hp)) (ih (s.parent x))

theorem isRootOf_total {e : Nat → Nat → Prop} {K : Nat} {s : UF} (hinv : UFInv e K s) :
    ∀ x, ∃ r, isRootOf s x r := by
  suffices h : ∀ (m x : Nat), K < m + s.rank x → ∃ r, isRootOf s x r by
    intro x
    exact h (K + 1) x (by omega)
  intro m
  induction m with
  | zero =>
    intro x hx
    exact absurd (hinv.rankle x) (by omega)
  | succ m ih =>
    intro x hx
    by_cases hp : s.parent x = x
    · exact ⟨x, hp, 0, rfl⟩
    · have h1 : s.rank x < s.rank (s.parent x) := hinv.rankup x hp
      obtain ⟨r, hr, n, hn⟩ := ih (s.parent x) (by omega)
      exact ⟨r, hr, n + 1, hn⟩

theorem eqvGen_iterP {e : Nat → Nat → Prop} (s : UF)
    (hconn : ∀ x, Relation.EqvGen e x (s.parent x)) :
    ∀ (n x : Nat), Relation.EqvGen e x (iterP s n x) := by
  intro n
  induction n with
  | zero => intro x; exact Relation.EqvGen.refl x
  | succ n ih =>
    intro x
    exact Relation.EqvGen.trans _ _ _ (hconn x) (ih (s.parent x))

theorem isRootOf_eqvGen {e : Nat → Nat → Prop} {s : UF}
    (hconn : ∀ x, Relation.EqvGen e x (s.parent x)) {x r : Nat}
    (h : isRootOf s x r) : Relation.EqvGen e x r := by
  obtain ⟨_, n, hn⟩ := h
  rw [← hn]
  exact eqvGen_iterP s hconn n x

theorem sameRoot_eqvGen {e : Nat → Nat → Prop} {K : Nat} {s : UF} (hinv : UFInv e K s)
    {x y : Nat} (h : sameRoot s x y) : Relation.EqvGen e x y := by
  obtain ⟨r, hx, hy⟩ := h
  exact Relation.EqvGen.trans _ _ _ (isRootOf_eqvGen hinv.conn hx)
    (Relation.EqvGen.symm _ _ (isRootOf_eqvGen hinv.conn hy))

/-- Correctness of the fueled `find`: with the invariants and fuel at least
`K + 1 - rank x`, it returns the root of `x` and the path-compressed state
keeps the invariants, the rank function, and every root assignment. -/
theorem findAux_correct (e : Nat → Nat → Prop) (K : Nat) :
    ∀ (fuel : Nat) (s : UF) (x : Nat),
      UFInv e K s → K + 1 ≤ fuel + s.rank x →
      isRootOf s x (findAux fuel s x).2
      ∧ UFInv e K (findAux fuel s x).1
      ∧ (findAux fuel s x).1.rank = s.rank
      ∧ (∀ y r, isRootOf s y r → isRootOf (findAux fuel s x).1 y r) := by
  intro fuel
  induction fuel with
  | zero =>
    intro s x hinv hf
    exact absurd (hinv.rankle x) (by omega)
  | succ fuel ih =>
    intro s x hinv hf
    by_cases hp : s.parent x = x
    · have heq : findAux (fuel + 1) s x = (s, x) := by simp [findAux, hp]
      rw [heq]
      exact ⟨⟨hp, 0, rfl⟩, hinv, rfl, fun y r h => h⟩
    · have heq : findAux (fuel + 1) s x
          = findAux fuel ⟨Function.update s.parent x (s.parent (s.parent x)), s.rank⟩
              (s.parent (s.parent x)) := by
        simp [findAux, hp]
      have hrx : s.rank x < s.rank (s.parent x) := hinv.rankup x hp
      have hrgp : s.rank x < s.rank (s.parent (s.parent x)) := by
        by_cases hq : s.parent (s.parent x) = s.parent x
        · rw [hq]; exact hrx
        · have hq' : s.parent (s.parent x) ≠ s.parent x := hq
          by_cases hq2 : s.parent (s.parent x) = s.parent (s.parent x)
          · by_cases hq3 : s.parent (s.parent x) = s.parent x
            · exact absurd hq3 hq'
            · have := hinv.rankup (s.parent x) (fun he => hq (by rw [he]))
              omega
          · exact absurd rfl hq2
      have hinv1 : UFInv e K ⟨Function.update s.parent x (s.parent (s.parent x)), s.rank⟩ := by
        constructor
        · intro y hy
          by_cases hyx : y = x
          · subst hyx
            show s.rank y < s.rank (Function.update s.parent y (s.parent (s.parent y)) y)
            rw [Function.update_same]
            exact hrgp
          · have hy' : Function.update s.parent x (s.parent (s.parent x)) y ≠ y := hy
            rw [Function.update_noteq hyx] at hy'
            show s.rank y
              < s.rank (Function.update s.parent x (s.parent (s.parent x)) y)
            rw [Function.update_noteq hyx]
            exact hinv.rankup y hy'
        · exact hinv.rankle
        · intro y
          by_cases hyx : y = x
          · subst hyx
            show Relation.EqvGen e y (Function.update s.parent y (s.parent (s.parent y)) y)
            rw [Function.update_same]
            exact Relation.EqvGen.trans _ _ _ (hinv.conn y) (hinv.conn (s.parent y))
          · show Relation.EqvGen e y (Function.update s.parent x (s.parent (s.parent x)) y)
            rw [Function.update_noteq hyx]
            exact hinv.conn y
      have hfuel1 : K + 1 ≤ fuel
          + (⟨Function.update s.parent x (s.parent (s.parent x)), s.rank⟩ : UF).rank
              (s.parent (s.parent x)) := by
        show K + 1 ≤ fuel + s.rank (s.parent (s.parent x))
        omega
      obtain ⟨hroot1, hinvf, hrankf, htransf⟩ :=
        ih ⟨Function.update s.parent x (s.parent (s.parent x)), s.rank⟩
          (s.parent (s.parent x)) hinv1 hfuel1
      -- chains in the compressed state starting strictly above x's rank are chains of s
      have chainA : ∀ (n y : Nat), s.rank x < s.rank y →
          iterP ⟨Function.update s.parent x (s.parent (s.parent x)), s.rank⟩ n y
            = iterP s n y := by
        intro n
        induction n with
        | zero => intro y _; rfl
        | succ n ihn =>
          intro y hy
          have hyx : y ≠ x := fun he => by rw [he] at hy; omega
          show iterP ⟨Function.update s.parent x (s.parent (s.parent x)), s.rank⟩ n
              (Function.update s.parent x (s.parent (s.parent x)) y)
            = iterP s n (s.parent y)
          rw [Function.update_noteq hyx]
          refine ihn (s.parent y) ?_
          by_cases hq : s.parent y = y
          · rw [hq]; exact hy
          · have := hinv.rankup y hq; omega
      -- the root returned is x's root in the original state
      obtain ⟨hr1, n, hn⟩ := hroot1
      have hnS : iterP s n (s.parent (s.parent x)) = (findAux (fuel + 1) s x).2 := by
        rw [← chainA n (s.parent (s.parent x)) hrgp]
        rw [heq]
        exact hn
      have hrankr : s.rank x < s.rank ((findAux (fuel + 1) s x).2) := by
        have h1 := rank_le_iterP s hinv.rankup n (s.parent (s.parent x))
        rw [hnS] at h1
        omega
      have hrneq : (findAux (fuel + 1) s x).2 ≠ x := fun he => by rw [he] at hrankr; omega
      have hrootS : s.parent ((findAux (fuel + 1) s x).2) = (findAux (fuel + 1) s x).2 := by
        have h1 : (⟨Function.update s.parent x (s.parent (s.parent x)), s.rank⟩ : UF).parent
            ((findAux (fuel + 1) s x).2) = (findAux (fuel + 1) s x).2 := by
          rw [heq]; exact hr1
        have h2 : Function.update s.parent x (s.parent (s.parent x))
            ((findAux (fuel + 1) s x).2) = (findAux (fuel + 1) s x).2 := h1
        rw [Function.update_noteq hrneq] at h2
        exact h2
      have hrootx : isRootOf s x ((findAux (fuel + 1) s x).2) := by
        refine ⟨hrootS, n + 2, ?_⟩
        show iterP s n (s.parent (s.parent x)) = _
        exact hnS
      -- chains of s transfer into the compressed state
      have chainB : ∀ (n' : Nat), ∀ (y r' : Nat), s.parent r' = r' → iterP s n' y = r' →
          ∃ m, iterP ⟨Function.update s.parent x (s.parent (s.parent x)), s.rank⟩ m y = r' := by
        intro n'
        induction n' using Nat.strong_induction_on with
        | _ n' ihn =>
        intro y r' hr' hn'
        match n', hn' with
        | 0, hn' =>
          exact ⟨0, hn'⟩
        | (m' + 1), hn' =>
          by_cases hyx : y = x
          · subst hyx
            cases m' with
            | zero =>
              have hpxr : s.parent y = r' := hn'
              have hgpr : s.parent (s.parent y) = r' := by rw [hpxr]; exact hr'
              refine ⟨1, ?_⟩
              show Function.update s.parent y (s.parent (s.parent y)) y = r'
              rw [Function.update_same]
              exact hgpr
            | succ m'' =>
              have hn'' : iterP s m'' (s.parent (s.parent y)) = r' := hn'
              obtain ⟨m, hm⟩ := ihn m'' (by omega) (s.parent (s.parent y)) r' hr' hn''
              refine ⟨m + 1, ?_⟩
              show iterP ⟨Function.update s.parent y (s.parent (s.parent y)), s.rank⟩ m
                  (Function.update s.parent y (s.parent (s.parent y)) y) = r'
              rw [Function.update_same]
              exact hm
          · have hn'' : iterP s m' (s.parent y) = r' := hn'
            obtain ⟨m, hm⟩ := ihn m' (by omega) (s.parent y) r' hr' hn''
            refine ⟨m + 1, ?_⟩
            show iterP ⟨Function.update s.parent x (s.parent (s.parent x)), s.rank⟩ m
                (Function.update s.parent x (s.parent (s.parent x)) y) = r'
            rw [Function.update_noteq hyx]
            exact hm
      have htrans1 : ∀ y r', isRootOf s y r' →
          isRootOf ⟨Function.update s.parent x (s.parent (s.parent x)), s.rank⟩ y r' := by
        rintro y r' ⟨hr', n', hn'⟩
        have hr'x : r' ≠ x := fun he => hp (by rw [← he]; exact hr')
        refine ⟨?_, chainB n' y r' hr' hn'⟩
        show Function.update s.parent x (s.parent (s.parent x)) r' = r'
        rw [Function.update_noteq hr'x]
        exact hr'
      refine ⟨hrootx, ?_, ?_, ?_⟩
      · rw [heq]; exact hinvf
      · rw [heq]; exact hrankf
      · intro y r h
        rw [heq]
        exact htransf y r (htrans1 y r h)

/-- Linking one root under another maps every old root assignment through
`if r = rl then rr else r`. -/
theorem link_root (s : UF) (rl rr : Nat) (hrl : s.parent rl = rl)
    (hrr : s.parent rr = rr) (hne : rl ≠ rr) (rk : Nat → Nat) :
    ∀ y r, isRootOf s y r →
      isRootOf ⟨Function.update s.parent rl rr, rk⟩ y (if r = rl then rr else r) := by
  have claim1 : ∀ (n y r : Nat), r ≠ rl → iterP s n y = r →
      iterP ⟨Function.update s.parent rl rr, rk⟩ n y = r := by
    intro n
    induction n with
    | zero => intro y r _ h; exact h
    | succ n ihn =>
      intro y r hr h
      have hyrl : y ≠ rl := by
        intro he
        rw [he] at h
        rw [show iterP s (n + 1) rl = iterP s n (s.parent rl) from rfl, hrl,
          iterP_root s rl hrl] at h
        exact hr h.symm
      show iterP ⟨Function.update s.parent rl rr, rk⟩ n
          (Function.update s.parent rl rr y) = r
      rw [Function.update_noteq hyrl]
      exact ihn (s.parent y) r hr h
  have claim2 : ∀ (n y : Nat), iterP s n y = rl →
      ∃ m, iterP ⟨Function.update s.parent rl rr, rk⟩ m y = rr := by
    intro n
    induction n with
    | zero =>
      intro y h
      subst h
      refine ⟨1, ?_⟩
      show Function.update s.parent y rr y = rr
      rw [Function.update_same]
    | succ n ihn =>
      intro y h
      by_cases hyrl : y = rl
      · subst hyrl
        refine ⟨1, ?_⟩
        show Function.update s.parent y rr y = rr
        rw [Function.update_same]
      · have h' : iterP s n (s.parent y) = rl := h
        obtain ⟨m, hm⟩ := ihn (s.parent y) h'
        refine ⟨m + 1, ?_⟩
        show iterP ⟨Function.update s.parent rl rr, rk⟩ m
            (Function.update s.parent rl rr y) = rr
        rw [Function.update_noteq hyrl]
        exact hm
  rintro y r ⟨hr, n, hn⟩
  by_cases hrrl : r = rl
  · rw [if_pos hrrl]
    rw [hrrl] at hn
    obtain ⟨m, hm⟩ := claim2 n y hn
    refine ⟨?_, m, hm⟩
    show Function.update s.parent rl rr rr = rr
    rw [Function.update_noteq (fun he => hne he.symm)]
    exact hrr
  · rw [if_neg hrrl]
    refine ⟨?_, n, claim1 n y r hrrl hn⟩
    show Function.update s.parent rl rr r = r
    rw [Function.update_noteq hrrl]
    exact hr

/-- Linking a root of strictly smaller rank under a root of larger rank
keeps the union-find invariants. -/
theorem UFInv_link (e : Nat → Nat → Prop) (K : Nat) (s : UF) (rl rr : Nat)
    (hinv : UFInv e K s) (hrk : s.rank rl < s.rank rr)
    (hE : Relation.EqvGen e rl rr) :
    UFInv e K ⟨Function.update s.parent rl rr, s.rank⟩ := by
  constructor
  · intro y hy
    by_cases hyl : y = rl
    · subst hyl
      show s.rank y < s.rank (Function.update s.parent y rr y)
      rw [Function.update_same]
      exact hrk
    · have hy' : Function.update s.parent rl rr y ≠ y := hy
      rw [Function.update_noteq hyl] at hy'
      show s.rank y < s.rank (Function.update s.parent rl rr y)
      rw [Function.update_noteq hyl]
      exact hinv.rankup y hy'
  · exact hinv.rankle
  · intro y
    by_cases hyl : y = rl
    · subst hyl
      show Relation.EqvGen e y (Function.update s.parent y rr y)
      rw [Function.update_same]
      exact hE
    · show Relation.EqvGen e y (Function.update s.parent rl rr y)
      rw [Function.update_noteq hyl]
      exact hinv.conn y

/-- Linking two equal-rank roots and bumping the winner's rank keeps the
invariants with the union counter increased by one. -/
theorem UFInv_link_bump (e : Nat → Nat → Prop) (K : Nat) (s : UF) (rl rr : Nat)
    (hinv : UFInv e K s) (hrr : s.parent rr = rr)
    (hne : rl ≠ rr) (hrk : s.rank rl = s.rank rr)
    (hE : Relation.EqvGen e rl rr) :
    UFInv e (K + 1)
      ⟨Function.update s.parent rl rr,
        Function.update s.rank rr (s.rank rr + 1)⟩ := by
  constructor
  · intro y hy
    have hy' : Function.update s.parent rl rr y ≠ y := hy
    show Function.update s.rank rr (s.rank rr + 1) y
        < Function.update s.rank rr (s.rank rr + 1) (Function.update s.parent rl rr y)
    by_cases hyl : y = rl
    · subst hyl
      rw [Function.update_same]
      rw [Function.update_same]
      rw [Function.update_noteq hne]
      omega
    · rw [Function.update_noteq hyl] at hy'
      by_cases hyr : y = rr
      · rw [hyr] at hy'
        exact absurd hrr hy'
      · rw [Function.update_noteq hyl]
        rw [Function.update_noteq hyr]
        have h1 : s.rank y < s.rank (s.parent y) := hinv.rankup y hy'
        by_cases hpr : s.parent y = rr
        · rw [hpr, Function.update_same]
          rw [hpr] at h1
          omega
        · rw [Function.update_noteq hpr]
          exact h1
  · intro z
    show Function.update s.rank rr (s.rank rr + 1) z ≤ K + 1
    by_cases hzr : z = rr
    · rw [hzr, Function.update_same]
      have := hinv.rankle rr
      omega
    · rw [Function.update_noteq hzr]
      exact Nat.le_trans (hinv.rankle z) (Nat.le_succ K)
  · intro y
    by_cases hyl : y = rl
    · subst hyl
      show Relation.EqvGen e y (Function.update s.parent y rr y)
      rw [Function.update_same]
      exact hE
    · show Relation.EqvGen e y (Function.update s.parent rl rr y)
      rw [Function.update_noteq hyl]
      exact hinv.conn y

/-- Correctness of one `union(a, b)`: invariants continue with the union
counter increased, `a` and `b` end up in one class, and every old root
assignment is mapped through a fixed root renaming. -/
theorem unionUF_correct (e : Nat → Nat → Prop) (K fuel : Nat) (s : UF) (a b : Nat)
    (hinv : UFInv e K s) (he : Relation.EqvGen e a b) (hf : K + 1 ≤ fuel) :
    UFInv e (K + 1) (unionUF fuel s a b)
    ∧ sameRoot (unionUF fuel s a b) a b
    ∧ ∃ rmap : Nat → Nat, ∀ y r, isRootOf s y r →
        isRootOf (unionUF fuel s a b) y (rmap r) := by
  obtain ⟨hra, hinva, hranka, htransa⟩ :=
    findAux_correct e K fuel s a hinv (by omega)
  obtain ⟨hrb, hinvb, hrankb, htransb⟩ :=
    findAux_correct e K fuel (findAux fuel s a).1 b hinva (by rw [hranka]; omega)
  have hraB : isRootOf (findAux fuel (findAux fuel s a).1 b).1 a (findAux fuel s a).2 :=
    htransb a (findAux fuel s a).2 (htransa a (findAux fuel s a).2 hra)
  have hrbB : isRootOf (findAux fuel (findAux fuel s a).1 b).1 b
      (findAux fuel (findAux fuel s a).1 b).2 :=
    htransb b (findAux fuel (findAux fuel s a).1 b).2 hrb
  have heAB : Relation.EqvGen e (findAux fuel s a).2
      (findAux fuel (findAux fuel s a).1 b).2 :=
    Relation.EqvGen.trans _ _ _
      (Relation.EqvGen.symm _ _ (isRootOf_eqvGen hinv.conn hra))
      (Relation.EqvGen.trans _ _ _ he (isRootOf_eqvGen hinva.conn hrb))
  have heq : unionUF fuel s a b
      = (if (findAux fuel s a).2 = (findAux fuel (findAux fuel s a).1 b).2 then
          (findAux fuel (findAux fuel s a).1 b).1
        else if (findAux fuel (findAux fuel s a).1 b).1.rank (findAux fuel s a).2
            < (findAux fuel (findAux fuel s a).1 b).1.rank
                (findAux fuel (findAux fuel s a).1 b).2 then
          ⟨Function.update (findAux fuel (findAux fuel s a).1 b).1.parent
              (findAux fuel s a).2 (findAux fuel (findAux fuel s a).1 b).2,
            (findAux fuel (findAux fuel s a).1 b).1.rank⟩
        else if (findAux fuel (findAux fuel s a).1 b).1.rank
              (findAux fuel (findAux fuel s a).1 b).2
            < (findAux fuel (findAux fuel s a).1 b).1.rank (findAux fuel s a).2 then
          ⟨Function.update (findAux fuel (findAux fuel s a).1 b).1.parent
              (findAux fuel (findAux fuel s a).1 b).2 (findAux fuel s a).2,
            (findAux fuel (findAux fuel s a).1 b).1.rank⟩
        else
          ⟨Function.update (findAux fuel (findAux fuel s a).1 b).1.parent
              (findAux fuel (findAux fuel s a).1 b).2 (findAux fuel s a).2,
            Function.update (findAux fuel (findAux fuel s a).1 b).1.rank
              (findAux fuel s a).2
              ((findAux fuel (findAux fuel s a).1 b).1.rank (findAux fuel s a).2 + 1)⟩) :=
    rfl
  rw [heq]
  by_cases hab : (findAux fuel s a).2 = (findAux fuel (findAux fuel s a).1 b).2
  · rw [if_pos hab]
    refine ⟨UFInv_mono hinvb (Nat.le_succ K), ?_, ?_⟩
    · rw [hab] at hraB
      exact ⟨(findAux fuel (findAux fuel s a).1 b).2, hraB, hrbB⟩
    · exact ⟨fun r => r, fun y r h => htransb y r (htransa y r h)⟩
  · rw [if_neg hab]
    by_cases h1 : (findAux fuel (findAux fuel s a).1 b).1.rank (findAux fuel s a).2
        < (findAux fuel (findAux fuel s a).1 b).1.rank
            (findAux fuel (findAux fuel s a).1 b).2
    · rw [if_pos h1]
      refine ⟨UFInv_mono (UFInv_link e K _ _ _ hinvb h1 heAB) (Nat.le_succ K), ?_, ?_⟩
      · have ha2 := link_root (findAux fuel (findAux fuel s a).1 b).1
          (findAux fuel s a).2 (findAux fuel (findAux fuel s a).1 b).2
          hraB.1 hrbB.1 hab (findAux fuel (findAux fuel s a).1 b).1.rank
          a (findAux fuel s a).2 hraB
        have hb2 := link_root (findAux fuel (findAux fuel s a).1 b).1
          (findAux fuel s a).2 (findAux fuel (findAux fuel s a).1 b).2
          hraB.1 hrbB.1 hab (findAux fuel (findAux fuel s a).1 b).1.rank
          b (findAux fuel (findAux fuel s a).1 b).2 hrbB
        rw [if_pos rfl] at ha2
        rw [if_neg (fun hh => hab hh.symm)] at hb2
        exact ⟨(findAux fuel (findAux fuel s a).1 b).2, ha2, hb2⟩
      · refine ⟨fun r => if r = (findAux fuel s a).2
            then (findAux fuel (findAux fuel s a).1 b).2 else r, ?_⟩
        intro y r h
        exact link_root (findAux fuel (findAux fuel s a).1 b).1
          (findAux fuel s a).2 (findAux fuel (findAux fuel s a).1 b).2
          hraB.1 hrbB.1 hab (findAux fuel (findAux fuel s a).1 b).1.rank
          y r (htransb y r (htransa y r h))
    · rw [if_neg h1]
      by_cases h2 : (findAux fuel (findAux fuel s a).1 b).1.rank
            (findAux fuel (findAux fuel s a).1 b).2
          < (findAux fuel (findAux fuel s a).1 b).1.rank (findAux fuel s a).2
      · rw [if_pos h2]
        refine ⟨UFInv_mono (UFInv_link e K _ _ _ hinvb h2
            (Relation.EqvGen.symm _ _ heAB)) (Nat.le_succ K), ?_, ?_⟩
        · have ha2 := link_root (findAux fuel (findAux fuel s a).1 b).1
            (findAux fuel (findAux fuel s a).1 b).2 (findAux fuel s a).2
            hrbB.1 hraB.1 (fun hh => hab hh.symm)
            (findAux fuel (findAux fuel s a).1 b).1.rank a (findAux fuel s a).2 hraB
          have hb2 := link_root (findAux fuel (findAux fuel s a).1 b).1
            (findAux fuel (findAux fuel s a).1 b).2 (findAux fuel s a).2
            hrbB.1 hraB.1 (fun hh => hab hh.symm)
            (findAux fuel (findAux fuel s a).1 b).1.rank
            b (findAux fuel (findAux fuel s a).1 b).2 hrbB
          rw [if_neg hab] at ha2
          rw [if_pos rfl] at hb2
          exact ⟨(findAux fuel s a).2, ha2, hb2⟩
        · refine ⟨fun r => if r = (findAux fuel (findAux fuel s a).1 b).2
              then (findAux fuel s a).2 else r, ?_⟩
          intro y r h
          exact link_root (findAux fuel (findAux fuel s a).1 b).1
            (findAux fuel (findAux fuel s a).1 b).2 (findAux fuel s a).2
            hrbB.1 hraB.1 (fun hh => hab hh.symm)
            (findAux fuel (findAux fuel s a).1 b).1.rank
            y r (htransb y r (htransa y r h))
      · rw [if_neg h2]
        have hrkeq : (findAux fuel (findAux fuel s a).1 b).1.rank
              (findAux fuel (findAux fuel s a).1 b).2
            = (findAux fuel (findAux fuel s a).1 b).1.rank (findAux fuel s a).2 := by
          omega
        refine ⟨UFInv_link_bump e K _ _ _ hinvb hraB.1
            (fun hh => hab hh.symm) hrkeq (Relation.EqvGen.symm _ _ heAB), ?_, ?_⟩
        · have ha2 := link_root (findAux fuel (findAux fuel s a).1 b).1
            (findAux fuel (findAux fuel s a).1 b).2 (findAux fuel s a).2
            hrbB.1 hraB.1 (fun hh => hab hh.symm)
            (Function.update (findAux fuel (findAux fuel s a).1 b).1.rank
              (findAux fuel s a).2
              ((findAux fuel (findAux fuel s a).1 b).1.rank (findAux fuel s a).2 + 1))
            a (findAux fuel s a).2 hraB
          have hb2 := link_root (findAux fuel (findAux fuel s a).1 b).1
            (findAux fuel (findAux fuel s a).1 b).2 (findAux fuel s a).2
            hrbB.1 hraB.1 (fun hh => hab hh.symm)
            (Function.update (findAux fuel (findAux fuel s a).1 b).1.rank
              (findAux fuel s a).2
              ((findAux fuel (findAux fuel s a).1 b).1.rank (findAux fuel s a).2 + 1))
            b (findAux fuel (findAux fuel s a).1 b).2 hrbB
          rw [if_neg hab] at ha2
          rw [if_pos rfl] at hb2
          exact ⟨(findAux fuel s a).2, ha2, hb2⟩
        · refine ⟨fun r => if r = (findAux fuel (findAux fuel s a).1 b).2
              then (findAux fuel s a).2 else r, ?_⟩
          intro y r h
          exact link_root (findAux fuel (findAux fuel s a).1 b).1
            (findAux fuel (findAux fuel s a).1 b).2 (findAux fuel s a).2
            hrbB.1 hraB.1 (fun hh => hab hh.symm)
            (Function.update (findAux fuel (findAux fuel s a).1 b).1.rank
              (findAux fuel s a).2
              ((findAux fuel (findAux fuel s a).1 b).1.rank (findAux fuel s a).2 + 1))
            y r (htransb y r (htransa y r h))

/-- The edge relation of the qualifying pairs: `(u, v)` is a key. -/
def qRel (qual : List ((Nat × Nat) × Q)) (u v : Nat) : Prop :=
  (u, v) ∈ qual.map Prod.fst

/-- Folding `union` over a list of edges with enough fuel: invariants hold
with the counter advanced, old root assignments map through a renaming, and
every processed edge ends up within one class. -/
theorem foldUnion_correct (e : Nat → Nat → Prop) (F : Nat) :
    ∀ (l : List ((Nat × Nat) × Q)) (K : Nat) (s : UF),
      UFInv e K s → K + l.length < F →
      (∀ ps ∈ l, e ps.1.1 ps.1.2) →
      UFInv e (K + l.length) (l.foldl (fun t ps => unionUF F t ps.1.1 ps.1.2) s)
      ∧ (∃ rmap : Nat → Nat, ∀ y r, isRootOf s y r →
          isRootOf (l.foldl (fun t ps => unionUF F t ps.1.1 ps.1.2) s) y (rmap r))
      ∧ (∀ ps ∈ l, sameRoot (l.foldl (fun t ps => unionUF F t ps.1.1 ps.1.2) s)
          ps.1.1 ps.1.2) := by
  intro l
  induction l with
  | nil =>
    intro K s hinv _ _
    exact ⟨hinv, ⟨fun r => r, fun y r h => h⟩, by intro ps hps; simp at hps⟩
  | cons p l ih =>
    intro K s hinv hF hE
    have hp : e p.1.1 p.1.2 := hE p (List.mem_cons_self _ _)
    obtain ⟨hinv1, hsr1, rmap0, h0⟩ :=
      unionUF_correct e K F s p.1.1 p.1.2 hinv (Relation.EqvGen.rel _ _ hp)
        (by simp at hF; omega)
    obtain ⟨hinvf, ⟨rmap1, h1⟩, hprocessed⟩ :=
      ih (K + 1) (unionUF F s p.1.1 p.1.2) hinv1 (by simp at hF ⊢; omega)
        (fun ps hps => hE ps (List.mem_cons_of_mem _ hps))
    refine ⟨?_, ⟨fun r => rmap1 (rmap0 r), fun y r h => h1 y (rmap0 r) (h0 y r h)⟩, ?_⟩
    · show UFInv e (K + (l.length + 1)) _
      exact UFInv_mono hinvf (by omega)
    · intro ps hps
      rcases List.mem_cons.mp hps with hh | hh
      · subst hh
        obtain ⟨r, hx, hy⟩ := hsr1
        exact ⟨rmap1 r, h1 ps.1.1 r hx, h1 ps.1.2 r hy⟩
      · exact hprocessed ps hh

/-- The state after all qualifying unions satisfies the invariants, and
every qualifying pair shares a class. -/
theorem unionState_correct (ps : List ((Nat × Nat) × Q)) (thr : Q) :
    UFInv (qRel (qualifyingOf ps thr)) (qualifyingOf ps thr).length (unionState ps thr)
    ∧ (∀ q ∈ qualifyingOf ps thr, sameRoot (unionState ps thr) q.1.1 q.1.2) := by
  have hinit : UFInv (qRel (qualifyingOf ps thr)) 0 ⟨fun x => x, fun _ => 0⟩ :=
    ⟨fun x hx => absurd rfl hx, fun _ => Nat.le_refl 0, fun x => Relation.EqvGen.refl x⟩
  obtain ⟨h1, _, h3⟩ := foldUnion_correct (qRel (qualifyingOf ps thr))
    ((qualifyingOf ps thr).length + 2) (qualifyingOf ps thr) 0 ⟨fun x => x, fun _ => 0⟩
    hinit (by omega) (fun q hq => List.mem_map.mpr ⟨q, hq, rfl⟩)
  constructor
  · unfold unionState
    rw [Nat.zero_add] at h1
    exact h1
  · exact h3

/-- The grouping fold assigns each DOT the root it has in the incoming
state; path compression threads through without changing any root. -/
theorem groupFold_eq (e : Nat → Nat → Prop) (F L : Nat) (S : UF) (rootS : Nat → Nat)
    (hroot : ∀ d, isRootOf S d (rootS d)) :
    ∀ (l : List Nat) (t : UF) (m : List (Nat × List Nat)),
      UFInv e L t → L < F →
      (∀ y r, isRootOf S y r → isRootOf t y r) →
      (l.foldl (fun acc dot =>
          ((findAux F acc.1 dot).1,
            aupd acc.2 (findAux F acc.1 dot).2 [] (fun g => g ++ [dot]))) (t, m)).2
        = l.foldl (fun mm d => aupd mm (rootS d) [] (fun g => g ++ [d])) m := by
  intro l
  induction l with
  | nil => intro t m _ _ _; rfl
  | cons d l ih =>
    intro t m hinvt hLF htrans
    obtain ⟨hrd, hinv', _, htrans'⟩ :=
      findAux_correct e L F t d hinvt (by omega)
    have hr : (findAux F t d).2 = rootS d :=
      isRootOf_unique hrd (htrans d (rootS d) (hroot d))
    show (l.foldl (fun acc dot =>
        ((findAux F acc.1 dot).1,
          aupd acc.2 (findAux F acc.1 dot).2 [] (fun g => g ++ [dot])))
        ((findAux F t d).1, aupd m (findAux F t d).2 [] (fun g => g ++ [d]))).2
      = l.foldl (fun mm d => aupd mm (rootS d) [] (fun g => g ++ [d]))
          (aupd m (rootS d) [] (fun g => g ++ [d]))
    rw [hr]
    exact ih (findAux F t d).1 (aupd m (rootS d) [] (fun g => g ++ [d]))
      hinv' hLF (fun y r h => htrans' y r (htrans y r h))

theorem mem_keys_aupd {α β : Type} [DecidableEq α] (m : List (α × β)) (k x : α)
    (d : β) (f : β → β) (hx : x ∈ (aupd m k d f).map Prod.fst) :
    x ∈ m.map Prod.fst ∨ x = k := by
  obtain ⟨p, hp, he⟩ := List.mem_map.mp hx
  rcases mem_aupd _ _ _ _ _ hp with hin | hpe
  · exact Or.inl (List.mem_map.mpr ⟨p, hin, he⟩)
  · right
    rw [hpe] at he
    simpa using he.symm

theorem keys_nodup_aupd {α β : Type} [DecidableEq α] :
    ∀ (m : List (α × β)) (k : α) (d : β) (f : β → β),
      (m.map Prod.fst).Nodup → ((aupd m k d f).map Prod.fst).Nodup := by
  intro m
  induction m with
  | nil => intro k d f _; simp [aupd]
  | cons q rest ih =>
    intro k d f hnd
    obtain ⟨a, b⟩ := q
    simp only [List.map_cons, List.nodup_cons] at hnd
    simp only [aupd]
    by_cases ha : a = k
    · rw [if_pos ha]
      simp only [List.map_cons, List.nodup_cons]
      exact hnd
    · rw [if_neg ha]
      simp only [List.map_cons, List.nodup_cons]
      refine ⟨?_, ih k d f hnd.2⟩
      intro hmem
      rcases mem_keys_aupd rest k a d f hmem with h | h
      · exact hnd.1 h
      · exact ha h

theorem alookup_of_mem_nodup {α β : Type} [DecidableEq α] :
    ∀ (m : List (α × β)) (p : α × β), (m.map Prod.fst).Nodup → p ∈ m →
      alookup m p.1 = some p.2 := by
  intro m
  induction m with
  | nil => intro p _ hp; simp at hp
  | cons q rest ih =>
    intro p hnd hp
    obtain ⟨a, b⟩ := q
    simp only [List.map_cons, List.nodup_cons] at hnd
    rcases List.mem_cons.mp hp with he | hm
    · rw [he]
      simp [alookup]
    · simp only [alookup]
      by_cases ha : a = p.1
      · exact absurd (List.mem_map.mpr ⟨p, hm, rfl⟩) (by rw [ha] at hnd; exact hnd.1)
      · rw [if_neg ha]
        exact ih p hnd.2 hm

/-- Each binding of the `members_by_root` fold holds exactly the processed
DOTs keyed to it, in input order. -/
theorem groupBy_char (f : Nat → Nat) :
    ∀ (l : List Nat) (m : List (Nat × List Nat)), (m.map Prod.fst).Nodup →
      ∀ p ∈ l.foldl (fun mm d => aupd mm (f d) [] (fun g => g ++ [d])) m,
        p.2 = (alookup m p.1).getD [] ++ l.filter (fun d => decide (f d = p.1)) := by
  intro l
  induction l with
  | nil =>
    intro m hnd p hp
    simp only [List.foldl_nil] at hp
    rw [alookup_of_mem_nodup m p hnd hp]
    simp
  | cons d l ih =>
    intro m hnd p hp
    simp only [List.foldl_cons] at hp
    have h1 := ih (aupd m (f d) [] (fun g => g ++ [d]))
      (keys_nodup_aupd m _ _ _ hnd) p hp
    simp only [List.filter_cons]
    by_cases hfd : f d = p.1
    · rw [if_pos (by simp [hfd])]
      rw [hfd] at h1
      rw [alookup_aupd_eq] at h1
      rw [h1]
      simp
    · rw [if_neg (by simp [hfd])]
      rw [alookup_aupd_ne m (f d) p.1 [] _ (fun he => hfd he.symm)] at h1
      exact h1

/-- A walk of exactly `n` steps from `d0` whose intermediate vertices stay
in `M`, stepping along edges of `E` in either orientation. -/
def reachIn (E : List (Nat × Nat)) (M : List Nat) (d0 : Nat) : Nat → Nat → Prop
  | 0, v => v = d0
  | n + 1, v => ∃ u, u ∈ M ∧ reachIn E M d0 n u ∧ ((u, v) ∈ E ∨ (v, u) ∈ E)

theorem rtg_of_eqvGen {r : Nat → Nat → Prop} {a b : Nat}
    (h : Relation.EqvGen r a b) :
    Relation.ReflTransGen (fun u v => r u v ∨ r v u) a b := by
  induction h with
  | rel x y hxy => exact Relation.ReflTransGen.single (Or.inl hxy)
  | refl x => exact Relation.ReflTransGen.refl
  | symm x y _ ih =>
    exact Relation.ReflTransGen.symmetric (fun u v huv => Or.symm huv) ih
  | trans x y z _ _ ih1 ih2 => exact Relation.ReflTransGen.trans ih1 ih2

theorem eqvGen_of_rtg {r : Nat → Nat → Prop} {a b : Nat}
    (h : Relation.ReflTransGen (fun u v => r u v ∨ r v u) a b) :
    Relation.EqvGen r a b := by
  induction h with
  | refl => exact Relation.EqvGen.refl a
  | tail _ hbc ih =>
    rcases hbc with h1 | h1
    · exact Relation.EqvGen.trans _ _ _ ih (Relation.EqvGen.rel _ _ h1)
    · exact Relation.EqvGen.trans _ _ _ ih
        (Relation.EqvGen.symm _ _ (Relation.EqvGen.rel _ _ h1))

/-- Everything connected to `d0` (with all edge endpoints pulled into `M`
by the closure hypothesis) is reached by a walk inside `M`. -/
theorem eqvGen_reach (E : List (Nat × Nat)) (M : List Nat) (d0 : Nat)
    (hcl : ∀ u, (∃ z, (u, z) ∈ E ∨ (z, u) ∈ E) →
      Relation.EqvGen (fun a b => (a, b) ∈ E) d0 u → u ∈ M) :
    ∀ v, Relation.EqvGen (fun a b => (a, b) ∈ E) d0 v →
      ∃ n, reachIn E M d0 n v := by
  intro v hv
  have hrtg := rtg_of_eqvGen hv
  clear hv
  induction hrtg with
  | refl => exact ⟨0, rfl⟩
  | @tail b c hab hbc ih =>
    obtain ⟨n, hn⟩ := ih
    have hbM : b ∈ M := hcl b ⟨c, hbc⟩ (eqvGen_of_rtg hab)
    exact ⟨n + 1, b, hbM, hn, hbc⟩

/-- In a strictly increasing list, every in-order pair is a combination. -/
theorem mem_combinations2_of_lt :
    ∀ (l : List Nat), l.Pairwise (fun a b => a < b) →
      ∀ a b, a ∈ l → b ∈ l → a < b → (a, b) ∈ combinations2 l := by
  intro l
  induction l with
  | nil => intro _ a b ha _ _; simp at ha
  | cons x xs ih =>
    intro hpw a b ha hb hab
    simp only [List.pairwise_cons] at hpw
    simp only [combinations2, List.mem_append, List.mem_map]
    rcases List.mem_cons.mp ha with hax | hax
    · rcases List.mem_cons.mp hb with hbx | hbx
      · exact absurd hab (by omega)
      · left
        refine ⟨b, hbx, ?_⟩
        rw [hax]
    · rcases List.mem_cons.mp hb with hbx | hbx
      · exact absurd hab (by have := hpw.1 a hax; omega)
      · right
        exact ih hpw.2 a b hax hbx hab

theorem alookup_isSome_of_mem {α β : Type} [DecidableEq α] :
    ∀ (m : List (α × β)) (k : α), k ∈ m.map Prod.fst →
      (alookup m k).isSome = true := by
  intro m
  induction m with
  | nil => intro k hk; simp at hk
  | cons q rest ih =>
    intro k hk
    obtain ⟨a, b⟩ := q
    simp only [alookup]
    by_cases ha : a = k
    · rw [if_pos ha]; rfl
    · rw [if_neg ha]
      apply ih
      simp only [List.map_cons, List.mem_cons] at hk
      rcases hk with he | hm
      · exact absurd he.symm ha
      · exact hm

theorem length_filterMap_eq_countP {α β : Type} (f : α → Option β) :
    ∀ l : List α, (l.filterMap f).length = l.countP (fun a => (f a).isSome) := by
  intro l
  induction l with
  | nil => rfl
  | cons x xs ih =>
    simp only [List.filterMap_cons, List.countP_cons]
    cases hx : f x with
    | none => simp [hx, ih]
    | some y => simp [hx, ih]

theorem length_filter_ne {α : Type} [DecidableEq α] :
    ∀ (l : List α) (a : α), l.Nodup → a ∈ l →
      (l.filter (fun x => decide (x ≠ a))).length = l.length - 1 := by
  intro l
  induction l with
  | nil => intro a _ ha; simp at ha
  | cons x xs ih =>
    intro a hnd ha
    simp only [List.nodup_cons] at hnd
    rcases List.mem_cons.mp ha with he | hm
    · rw [List.filter_cons]
      rw [if_neg (by simp [he])]
      have hall : xs.filter (fun y => decide (y ≠ a)) = xs := by
        refine List.filter_eq_self.mpr ?_
        intro y hy
        simp only [decide_eq_true_eq]
        intro hya
        rw [← he, ← hya] at hnd
        exact hnd.1 hy
      rw [hall]
      simp
    · have hxa : x ≠ a := fun hh => hnd.1 (hh ▸ hm)
      rw [List.filter_cons]
      rw [if_pos (by simp [hxa])]
      have h1 := ih a hnd.2 hm
      have h2 : 0 < xs.length := List.length_pos_of_mem hm
      simp only [List.length_cons]
      omega

theorem natMin_eq_left {a b : Nat} (h : a ≤ b) : Nat.min a b = a := by
  simp [Nat.min]; omega

theorem natMin_eq_right {a b : Nat} (h : b ≤ a) : Nat.min a b = b := by
  simp [Nat.min]; omega

theorem natMax_eq_left {a b : Nat} (h : b ≤ a) : Nat.max a b = a := by
  simp [Nat.max]; omega

theorem natMax_eq_right {a b : Nat} (h : a ≤ b) : Nat.max a b = b := by
  simp [Nat.max]; omega

theorem natMin_comm (a b : Nat) : Nat.min a b = Nat.min b a := by
  simp [Nat.min]; omega

theorem natMax_comm (a b : Nat) : Nat.max a b = Nat.max b a := by
  simp [Nat.max]; omega

/-- A set of vertices pairwise reached from a member `d0` by walks inside
itself has at least `size - 1` counted internal edges: each non-`d0` vertex
contributes its first edge on a shortest walk, injectively. -/
theorem connected_edge_bound (E : List (Nat × Nat)) (M : List Nat) (d0 : Nat)
    (p : Nat × Nat → Bool)
    (hd0 : d0 ∈ M) (hnd : M.Pairwise (fun a b => a < b))
    (hreach : ∀ m ∈ M, ∃ n, reachIn E M d0 n m)
    (hEne : ∀ u v, ((u, v) ∈ E ∨ (v, u) ∈ E) → u ≠ v)
    (hp : ∀ u v, ((u, v) ∈ E ∨ (v, u) ∈ E) → p (Nat.min u v, Nat.max u v) = true) :
    M.length - 1 ≤ (combinations2 M).countP p := by
  classical
  have hMnd : M.Nodup := List.Pairwise.imp (fun h => Nat.ne_of_lt h) hnd
  -- minimal walk length to each member
  have hdist : ∀ v, ∃ k : Nat, v ∈ M →
      reachIn E M d0 k v ∧ ∀ j, j < k → ¬ reachIn E M d0 j v := by
    intro v
    by_cases hv : v ∈ M
    · have hex : ∃ k, reachIn E M d0 k v := hreach v hv
      exact ⟨Nat.find hex,
        fun _ => ⟨Nat.find_spec hex, fun j hj => Nat.find_min hex hj⟩⟩
    · exact ⟨0, fun hv' => absurd hv' hv⟩
  choose dist hdistspec using hdist
  -- the first edge of a shortest walk to each non-d0 member
  have hsel : ∀ m : Nat, ∃ u : Nat, m ∈ M → m ≠ d0 →
      u ∈ M ∧ ((u, m) ∈ E ∨ (m, u) ∈ E) ∧ dist u < dist m := by
    intro m
    by_cases hm : m ∈ M ∧ m ≠ d0
    · obtain ⟨hmM, hmd0⟩ := hm
      obtain ⟨hre, hmin⟩ := hdistspec m hmM
      cases hk : dist m with
      | zero =>
        rw [hk] at hre
        exact absurd hre hmd0
      | succ k =>
        rw [hk] at hre
        obtain ⟨u, huM, hureach, hadj⟩ := hre
        refine ⟨u, fun _ _ => ⟨huM, hadj, ?_⟩⟩
        obtain ⟨_, humin⟩ := hdistspec u huM
        by_cases hlt : dist u ≤ k
        · omega
        · exact absurd hureach (humin k (by omega))
    · exact ⟨0, fun h1 h2 => absurd ⟨h1, h2⟩ hm⟩
  choose w hw using hsel
  have hgmem : ∀ m ∈ M.filter (fun x => decide (x ≠ d0)),
      (Nat.min m (w m), Nat.max m (w m)) ∈ combinations2 M
      ∧ p (Nat.min m (w m), Nat.max m (w m)) = true := by
    intro m hm
    rw [List.mem_filter] at hm
    obtain ⟨hmM, hmd0⟩ := hm
    have hmd0' : m ≠ d0 := by simpa using hmd0
    obtain ⟨hwM, hadj, _⟩ := hw m hmM hmd0'
    have hne : w m ≠ m := hEne (w m) m hadj
    constructor
    · rcases Nat.lt_or_ge m (w m) with hlt | hge
      · rw [natMin_eq_left (Nat.le_of_lt hlt), natMax_eq_right (Nat.le_of_lt hlt)]
        exact mem_combinations2_of_lt M hnd m (w m) hmM hwM hlt
      · have hlt : w m < m := by omega
        rw [natMin_eq_right (Nat.le_of_lt hlt), natMax_eq_left (Nat.le_of_lt hlt)]
        exact mem_combinations2_of_lt M hnd (w m) m hwM hmM hlt
    · have hpm := hp (w m) m hadj
      rw [natMin_comm, natMax_comm] at hpm
      exact hpm
  have hinj : ∀ m1 ∈ M.filter (fun x => decide (x ≠ d0)),
      ∀ m2 ∈ M.filter (fun x => decide (x ≠ d0)),
      (Nat.min m1 (w m1), Nat.max m1 (w m1))
        = (Nat.min m2 (w m2), Nat.max m2 (w m2)) → m1 = m2 := by
    intro m1 hm1 m2 hm2 he
    rw [List.mem_filter] at hm1 hm2
    have h1 := hw m1 hm1.1 (by simpa using hm1.2)
    have h2 := hw m2 hm2.1 (by simpa using hm2.2)
    have hmin : Nat.min m1 (w m1) = Nat.min m2 (w m2) := congrArg Prod.fst he
    have hmax : Nat.max m1 (w m1) = Nat.max m2 (w m2) := congrArg Prod.snd he
    have hd1 : dist (w m1) < dist m1 := h1.2.2
    have hd2 : dist (w m2) < dist m2 := h2.2.2
    rcases Nat.le_total m1 (w m1) with hl1 | hl1 <;>
      rcases Nat.le_total m2 (w m2) with hl2 | hl2
    · rw [natMin_eq_left hl1, natMin_eq_left hl2] at hmin
      exact hmin
    · rw [natMin_eq_left hl1, natMin_eq_right hl2] at hmin
      rw [natMax_eq_right hl1, natMax_eq_left hl2] at hmax
      rw [hmax] at hd1
      rw [← hmin] at hd2
      omega
    · rw [natMin_eq_right hl1, natMin_eq_left hl2] at hmin
      rw [natMax_eq_left hl1, natMax_eq_right hl2] at hmax
      rw [hmin] at hd1
      rw [← hmax] at hd2
      omega
    · rw [natMax_eq_left hl1, natMax_eq_left hl2] at hmax
      exact hmax
  have hndf : (M.filter (fun x => decide (x ≠ d0))).Nodup := hMnd.filter _
  have hmapnd : ((M.filter (fun x => decide (x ≠ d0))).map
      (fun m => (Nat.min m (w m), Nat.max m (w m)))).Nodup :=
    List.Nodup.map_on hinj hndf
  have hsub : ((M.filter (fun x => decide (x ≠ d0))).map
      (fun m => (Nat.min m (w m), Nat.max m (w m))))
      ⊆ (combinations2 M).filter p := by
    intro ab hab
    obtain ⟨m, hm, he⟩ := List.mem_map.mp hab
    rw [List.mem_filter]
    obtain ⟨hc, hpc⟩ := hgmem m hm
    exact ⟨he ▸ hc, he ▸ hpc⟩
  have hlen : ((M.filter (fun x => decide (x ≠ d0))).map
      (fun m => (Nat.min m (w m), Nat.max m (w m)))).length
      ≤ ((combinations2 M).filter p).length :=
    (List.subperm_of_subset hmapnd hsub).length_le
  rw [List.length_map, length_filter_ne M d0 hMnd hd0] at hlen
  rw [← List.countP_eq_length_filter] at hlen
  exact hlen

theorem natLE_trans : ∀ a b c, natLE a b = true → natLE b c = true →
    natLE a c = true := by
  intro a b c h1 h2
  simp only [natLE, decide_eq_true_eq] at h1 h2 ⊢
  omega

theorem natLE_total : ∀ a b, natLE a b = true ∨ natLE b a = true := by
  intro a b
  simp only [natLE, decide_eq_true_eq]
  omega

theorem mem_assignIds_edge : ∀ (i : Nat) (l : List Cluster), ∀ x ∈ assignIds i l,
    ∃ c ∈ l, x.size = c.size ∧ x.edge_count = c.edge_count := by
  intro i l
  induction l generalizing i with
  | nil => intro x hx; simp [assignIds] at hx
  | cons c cs ih =>
    intro x hx
    rcases List.mem_cons.mp hx with hx | hx
    · exact ⟨c, by simp, by simp [hx], by simp [hx]⟩
    · obtain ⟨d, hd, h1, h2⟩ := ih (i + 1) x hx
      exact ⟨d, by simp [hd], h1, h2⟩

/-- Connectivity refines into the union-find classes: every connected pair
shares a root when every edge was unioned. -/
theorem eqvGen_sameRoot {e : Nat → Nat → Prop} {K : Nat} {S : UF} (hinv : UFInv e K S)
    (hedge : ∀ u v, e u v → sameRoot S u v) :
    ∀ u v, Relation.EqvGen e u v → sameRoot S u v := by
  intro u v h
  induction h with
  | rel x y hxy => exact hedge x y hxy
  | refl x =>
    obtain ⟨r, hr⟩ := isRootOf_total hinv x
    exact ⟨r, hr, hr⟩
  | symm x y _ ih =>
    obtain ⟨r, h1, h2⟩ := ih
    exact ⟨r, h2, h1⟩
  | trans x y z _ _ ih1 ih2 =>
    obtain ⟨r1, hx, hy⟩ := ih1
    obtain ⟨r2, hy', hz⟩ := ih2
    rw [isRootOf_unique hy hy'] at hx
    exact ⟨r2, hx, hz⟩

/-- C4: every cluster produced by `compute_clusters` (whose pair keys are
normalized `a < b` and whose edge endpoints are run DOTs) has at least
`size - 1` within-cluster qualifying edges; in particular every
multi-member union-find group is connected by qualifying edges. -/
theorem C4_cluster_connectivity (pair_scores : List ((Nat × Nat) × Q))
    (all_dots : List Nat) (thr : Q)
    (hnd : all_dots.Nodup)
    (hlt : ∀ q ∈ pair_scores, q.1.1 < q.1.2)
    (hin : ∀ q ∈ pair_scores, q.1.1 ∈ all_dots ∧ q.1.2 ∈ all_dots) :
    ∀ cl ∈ compute_clusters pair_scores all_dots thr,
      cl.size - 1 ≤ cl.edge_count := by
  obtain ⟨hinv, hsr⟩ := unionState_correct pair_scores thr
  choose rootS hrootS using isRootOf_total hinv
  have hltq : ∀ q ∈ qualifyingOf pair_scores thr, q.1.1 < q.1.2 :=
    fun q hq => hlt q (List.mem_of_mem_filter hq)
  have hinq : ∀ q ∈ qualifyingOf pair_scores thr,
      q.1.1 ∈ all_dots ∧ q.1.2 ∈ all_dots :=
    fun q hq => hin q (List.mem_of_mem_filter hq)
  have hkeylt : ∀ u v,
      (u, v) ∈ (qualifyingOf pair_scores thr).map Prod.fst → u < v := by
    intro u v h
    obtain ⟨q, hq, he⟩ := List.mem_map.mp h
    have h3 := hltq q hq
    have h1 : q.1.1 = u := by rw [he]
    have h2 : q.1.2 = v := by rw [he]
    rw [h1, h2] at h3
    exact h3
  have hkeyin : ∀ u v,
      ((u, v) ∈ (qualifyingOf pair_scores thr).map Prod.fst
        ∨ (v, u) ∈ (qualifyingOf pair_scores thr).map Prod.fst) →
      u ∈ all_dots := by
    intro u v h
    rcases h with h | h
    · obtain ⟨q, hq, he⟩ := List.mem_map.mp h
      have h3 := hinq q hq
      have h1 : q.1.1 = u := by rw [he]
      rw [h1] at h3
      exact h3.1
    · obtain ⟨q, hq, he⟩ := List.mem_map.mp h
      have h3 := hinq q hq
      have h2 : q.1.2 = u := by rw [he]
      rw [h2] at h3
      exact h3.2
  have hedge : ∀ u v, qRel (qualifyingOf pair_scores thr) u v →
      sameRoot (unionState pair_scores thr) u v := by
    intro u v huv
    obtain ⟨q, hq, he⟩ := List.mem_map.mp huv
    have h3 := hsr q hq
    have h1 : q.1.1 = u := by rw [he]
    have h2 : q.1.2 = v := by rw [he]
    rw [h1, h2] at h3
    exact h3
  intro cl hcl
  unfold compute_clusters at hcl
  obtain ⟨c, hc, hsz, hec⟩ := mem_assignIds_edge 1 _ cl hcl
  rw [hsz, hec]
  rw [mem_sortLE] at hc
  obtain ⟨g, hg, hbc⟩ := List.mem_map.mp hc
  subst hbc
  show (sortLE natLE g.2).length - 1
    ≤ ((combinations2 (sortLE natLE g.2)).filterMap
        (fun ab => alookup (qualifyingOf pair_scores thr) (normPair ab))).length
  rw [length_filterMap_eq_countP]
  -- characterize the group's member list
  unfold clusterGroups at hg
  rw [mem_sortLE] at hg
  rw [groupFold_eq (qRel (qualifyingOf pair_scores thr))
    ((qualifyingOf pair_scores thr).length + 2) (qualifyingOf pair_scores thr).length
    (unionState pair_scores thr) rootS hrootS all_dots (unionState pair_scores thr) []
    hinv (by omega) (fun y r h => h)] at hg
  have hchar : g.2 = all_dots.filter (fun d => decide (rootS d = g.1)) := by
    have h := groupBy_char rootS all_dots [] (by simp) g hg
    simpa [alookup] using h
  have hmemroot : ∀ u ∈ sortLE natLE g.2, u ∈ all_dots ∧ rootS u = g.1 := by
    intro u hu
    rw [mem_sortLE, hchar, List.mem_filter] at hu
    exact ⟨hu.1, by simpa using hu.2⟩
  have hmemM : ∀ u, u ∈ all_dots → rootS u = g.1 → u ∈ sortLE natLE g.2 := by
    intro u h1 h2
    rw [mem_sortLE, hchar, List.mem_filter]
    exact ⟨h1, by simp [h2]⟩
  by_cases hMnil : sortLE natLE g.2 = []
  · rw [hMnil]
    simp
  · obtain ⟨d0, hd0⟩ := List.exists_mem_of_ne_nil _ hMnil
    have hMnodup : (sortLE natLE g.2).Nodup :=
      (sortLE_perm natLE g.2).nodup_iff.mpr (by rw [hchar]; exact hnd.filter _)
    have hpairwise : (sortLE natLE g.2).Pairwise (fun a b => a < b) := by
      have h1 := sortLE_sorted natLE natLE_trans natLE_total g.2
      have h2 := List.Pairwise.and h1 hMnodup
      refine h2.imp ?_
      intro a b hab
      obtain ⟨hab1, hab2⟩ := hab
      simp only [natLE, decide_eq_true_eq] at hab1
      omega
    have hclosure : ∀ u,
        (∃ z, (u, z) ∈ (qualifyingOf pair_scores thr).map Prod.fst
          ∨ (z, u) ∈ (qualifyingOf pair_scores thr).map Prod.fst) →
        Relation.EqvGen
          (fun a b => (a, b) ∈ (qualifyingOf pair_scores thr).map Prod.fst) d0 u →
        u ∈ sortLE natLE g.2 := by
      rintro u ⟨z, hz⟩ hEq
      have hu_all : u ∈ all_dots := hkeyin u z hz
      have hsru : sameRoot (unionState pair_scores thr) d0 u :=
        eqvGen_sameRoot hinv hedge d0 u hEq
      obtain ⟨r, h1, h2⟩ := hsru
      have hr0 : rootS d0 = g.1 := (hmemroot d0 hd0).2
      have hru : rootS u = r := isRootOf_unique (hrootS u) h2
      have hrd : rootS d0 = r := isRootOf_unique (hrootS d0) h1
      exact hmemM u hu_all (by rw [hru, ← hrd, hr0])
    have hreach : ∀ m ∈ sortLE natLE g.2,
        ∃ n, reachIn ((qualifyingOf pair_scores thr).map Prod.fst)
          (sortLE natLE g.2) d0 n m := by
      intro m hm
      have hEqv : Relation.EqvGen
          (fun a b => (a, b) ∈ (qualifyingOf pair_scores thr).map Prod.fst) d0 m := by
        have hsrm : sameRoot (unionState pair_scores thr) d0 m := by
          have hr0 := (hmemroot d0 hd0).2
          have hrm := (hmemroot m hm).2
          exact ⟨g.1, by rw [← hr0]; exact hrootS d0, by rw [← hrm]; exact hrootS m⟩
        exact sameRoot_eqvGen hinv hsrm
      exact eqvGen_reach ((qualifyingOf pair_scores thr).map Prod.fst)
        (sortLE natLE g.2) d0 hclosure m hEqv
    have hEne : ∀ u v,
        ((u, v) ∈ (qualifyingOf pair_scores thr).map Prod.fst
          ∨ (v, u) ∈ (qualifyingOf pair_scores thr).map Prod.fst) → u ≠ v := by
      intro u v h
      rcases h with h | h
      · have := hkeylt u v h; omega
      · have := hkeylt v u h; omega
    have hp : ∀ u v,
        ((u, v) ∈ (qualifyingOf pair_scores thr).map Prod.fst
          ∨ (v, u) ∈ (qualifyingOf pair_scores thr).map Prod.fst) →
        (fun ab => (alookup (qualifyingOf pair_scores thr) (normPair ab)).isSome)
          (Nat.min u v, Nat.max u v) = true := by
      intro u v h
      rcases h with h | h
      · have hlt' := hkeylt u v h
        rw [natMin_eq_left (Nat.le_of_lt hlt'), natMax_eq_right (Nat.le_of_lt hlt')]
        show (alookup (qualifyingOf pair_scores thr) (normPair (u, v))).isSome = true
        have hnp : normPair (u, v) = (u, v) := by simp [normPair, hlt']
        rw [hnp]
        exact alookup_isSome_of_mem _ _ h
      · have hlt' := hkeylt v u h
        rw [natMin_eq_right (Nat.le_of_lt hlt'), natMax_eq_left (Nat.le_of_lt hlt')]
        show (alookup (qualifyingOf pair_scores thr) (normPair (v, u))).isSome = true
        have hnp : normPair (v, u) = (v, u) := by simp [normPair, hlt']
        rw [hnp]
        exact alookup_isSome_of_mem _ _ h
    exact connected_edge_bound ((qualifyingOf pair_scores thr).map Prod.fst)
      (sortLE natLE g.2) d0
      (fun ab => (alookup (qualifyingOf pair_scores thr) (normPair ab)).isSome)
      hd0 hpairwise hreach hEne hp

theorem C4_cluster_connectivity_witness :
    ([1, 2, 3] : List Nat).Nodup
    ∧ (∀ q ∈ [(((1 : Nat), (2 : Nat)), Q.ofNat 160)], q.1.1 < q.1.2)
    ∧ (∀ q ∈ [(((1 : Nat), (2 : Nat)), Q.ofNat 160)],
        q.1.1 ∈ [1, 2, 3] ∧ q.1.2 ∈ ([1, 2, 3] : List Nat))
    ∧ ∀ cl ∈ compute_clusters [(((1 : Nat), (2 : Nat)), Q.ofNat 160)] [1, 2, 3]
        (Q.ofNat 30), cl.size - 1 ≤ cl.edge_count :=
  ⟨by decide, by decide, by decide,
    C4_cluster_connectivity _ _ _ (by decide) (by decide) (by decide)⟩
